import Mathlib

/-!
Verification of the Huffman coding implementation in `src/huffman.cpp`.

The C++ sources include library headers (`bits.h`, `treenode.h`, `map.h`,
`queue.h`, `priorityqueue.h`) that are not part of the repository; those
parts are modelled from the specification, as marked in their doc comments.
All other definitions are direct shallow embeddings of the functions in
`src/huffman.cpp`.

Modelling conventions:
* `Bit` is modelled as `Bool` (`ONE` = `true`, `ZERO` = `false`).
* A C++ `EncodingTreeNode*` pointer is modelled by `ETree`, whose `null`
  constructor stands for `nullptr`.
* A C++ `Queue` is modelled as a `List` (front of the queue = head).
* Functions that can hit a Stanford-library runtime error (dequeue from an
  empty queue, the `error(...)` call in `compress`) return `Option` and
  yield `none` on those paths.
* Dereferencing a null pointer is undefined behaviour in C++; the model
  makes the accessors total (absorbing on `null`).  Every theorem below
  only exercises these accessors on non-null nodes.
-/

namespace Huffman

/-- Modelled from the spec: `treenode.h` is not in the repository.  An
`EncodingTreeNode*` value: either the null pointer or a node holding a
character and two child pointers (`zero` and `one` subtrees). -/
inductive ETree where
  | null : ETree
  | node (ch : Char) (zero : ETree) (one : ETree) : ETree
deriving DecidableEq

/-- Modelled from the spec: the character stored by the two-argument
(internal-node) `EncodingTreeNode` constructor; it is never read. -/
def internalCh : Char := Char.ofNat 0

/-- Modelled from the spec: `isLeaf` is true when both children are absent. -/
def ETree.isLeaf : ETree → Bool
  | .node _ .null .null => true
  | _ => false

/-- Modelled from the spec: the `zero` child pointer (absorbing on null). -/
def ETree.zero : ETree → ETree
  | .null => .null
  | .node _ z _ => z

/-- Modelled from the spec: the `one` child pointer (absorbing on null). -/
def ETree.one : ETree → ETree
  | .null => .null
  | .node _ _ o => o

/-- Modelled from the spec: `getChar` returns the stored character. -/
def ETree.getChar : ETree → Char
  | .null => internalCh
  | .node c _ _ => c

/-- The loop body of `decodeText`: walk `temp` down the tree one bit at a
time, emitting a character and resetting to the root whenever a leaf is
reached (lines 23-46 of `src/huffman.cpp`). -/
def decodeLoop (tree : ETree) : ETree → List Bool → List Char → List Char
  | _, [], text => text
  | temp, bitValue :: rest, text =>
    let t := if bitValue then temp.one else temp.zero
    if t.isLeaf then decodeLoop tree tree rest (text ++ [t.getChar])
    else decodeLoop tree t rest text

/-- `decodeText` from `src/huffman.cpp` (lines 23-46). -/
def decodeText (tree : ETree) (messageBits : List Bool) : String :=
  String.mk (decodeLoop tree tree messageBits [])

/-- `unflattenTree` from `src/huffman.cpp` (lines 57-70), with the leftover
queue contents made explicit in the result.  Each recursive call of the C++
function consumes at least one bit of `treeShape`, so the recursion depth is
bounded by the length of the shape queue; `fuel` carries that bound to make
the recursion structural (it is shown below never to run out when started at
`treeShape.length`).  `none` models the Stanford library error on dequeueing
from an empty `treeLeaves` queue.  The two recursive calls in the C++
constructor argument list are evaluated zero-child first, as the spec
requires. -/
def unflattenGo : Nat → List Bool → List Char →
    Option (ETree × List Bool × List Char)
  | _, [], treeLeaves => some (.null, [], treeLeaves)
  | 0, _ :: _, _ => none
  | fuel + 1, b :: treeShape, treeLeaves =>
    if b then
      match unflattenGo fuel treeShape treeLeaves with
      | none => none
      | some (z, shape1, leaves1) =>
        match unflattenGo fuel shape1 leaves1 with
        | none => none
        | some (o, shape2, leaves2) => some (.node internalCh z o, shape2, leaves2)
    else
      match treeLeaves with
      | [] => none
      | c :: rest => some (.node c .null .null, treeShape, rest)

/-- `unflattenTree` returning the built tree together with the queues as
they remain after the call. -/
def unflattenTree (treeShape : List Bool) (treeLeaves : List Char) :
    Option (ETree × List Bool × List Char) :=
  unflattenGo treeShape.length treeShape treeLeaves

/-- The serialized record produced by `compress` (`EncodedData` of the
assignment; field layout from the spec and the provided tests). -/
structure EncodedData where
  treeShape : List Bool
  treeLeaves : List Char
  messageBits : List Bool
deriving DecidableEq

/-- `decompress` from `src/huffman.cpp` (lines 86-91). -/
def decompress (data : EncodedData) : Option String :=
  match unflattenTree data.treeShape data.treeLeaves with
  | none => none
  | some r => some (decodeText r.1 data.messageBits)

/-- Modelled from the spec: lookup in a `Map<char, int>` (`map.h` is not in
the repository); a missing key reads as the default value `0`. -/
def mapGetNat : List (Char × Nat) → Char → Nat
  | [], _ => 0
  | (k, v) :: rest, key => if key = k then v else mapGetNat rest key

/-- `textFrequency` from `src/huffman.cpp` (lines 96-102): total frequency
of the leaves below `parent` according to `letterMap`. -/
def textFrequency : ETree → List (Char × Nat) → Nat
  | .null, _ => 0
  | .node c z o, letterMap =>
    if (ETree.node c z o).isLeaf then mapGetNat letterMap c
    else textFrequency o letterMap + textFrequency z letterMap

/-- Modelled from the spec: insertion into a `Map<char, int>` held in key
order (the Stanford map is an ordered map; its iteration order is the
sorted key order), adding 1 to the count as in lines 125-131 of
`src/huffman.cpp`. -/
def bumpFreq (c : Char) : List (Char × Nat) → List (Char × Nat)
  | [] => [(c, 1)]
  | (k, v) :: rest =>
    if c = k then (k, v + 1) :: rest
    else if c < k then (c, 1) :: (k, v) :: rest
    else (k, v) :: bumpFreq c rest

/-- The frequency map built by the first loop of `buildHuffmanTree`
(lines 125-131 of `src/huffman.cpp`). -/
def letterMapOf (text : List Char) : List (Char × Nat) :=
  text.foldl (fun m c => bumpFreq c m) []

/-- Modelled from the spec: `PriorityQueue::enqueue` — a min-priority queue
whose equal-priority entries are dequeued in insertion order (the spec:
"ties broken by insertion/enqueue order, i.e., stable FIFO among equal
weights").  The queue is kept as a list sorted by priority, front first; a
new entry goes after all entries of priority less than or equal to its own. -/
def pqEnqueue (x : ETree) (p : Nat) : List (Nat × ETree) → List (Nat × ETree)
  | [] => [(p, x)]
  | (q, y) :: rest =>
    if p < q then (p, x) :: (q, y) :: rest else (q, y) :: pqEnqueue x p rest

/-- The seeding loop of `buildHuffmanTree` (lines 133-135 of
`src/huffman.cpp`): one leaf per map entry, in map iteration order,
with the letter's count as priority. -/
def seedQueue (letterMap : List (Char × Nat)) : List (Nat × ETree) :=
  letterMap.foldl (fun q e => pqEnqueue (ETree.node e.1 .null .null) e.2 q) []

/-- The merging loop of `buildHuffmanTree` (lines 137-143 of
`src/huffman.cpp`): while at least two entries remain, dequeue two, make
the first the `zero` child and the second the `one` child of a new parent,
and enqueue the parent with priority `textFrequency parent letterMap`.
Each iteration shrinks the queue by one entry, so the iteration count is
bounded by the queue length; `fuel` carries that bound to make the
recursion structural (it is shown below never to run out when started at
the queue's length). -/
def huffmanLoopF (letterMap : List (Char × Nat)) :
    Nat → List (Nat × ETree) → List (Nat × ETree)
  | 0, q => q
  | fuel + 1, (_, leftNode) :: (_, rightNode) :: rest =>
    let parent := ETree.node internalCh leftNode rightNode
    huffmanLoopF letterMap fuel (pqEnqueue parent (textFrequency parent letterMap) rest)
  | _ + 1, q => q

/-- The merging loop, entered with the queue's length as the iteration
bound. -/
def huffmanLoop (letterMap : List (Char × Nat)) (q : List (Nat × ETree)) :
    List (Nat × ETree) :=
  huffmanLoopF letterMap q.length q

/-- `buildHuffmanTree` from `src/huffman.cpp` (lines 121-146).  The final
`treeQueue.dequeue()` on an empty queue (empty input text) is the Stanford
library error, modelled as `none`. -/
def buildHuffmanTree (text : String) : Option ETree :=
  let letterMap := letterMapOf text.data
  match huffmanLoop letterMap (seedQueue letterMap) with
  | (_, t) :: _ => some t
  | [] => none

/-- Modelled from the spec: lookup in a `Map<char, string>`; a missing key
reads as the default value, the empty string. -/
def mapGetStr : List (Char × List Char) → Char → List Char
  | [], _ => []
  | (k, v) :: rest, key => if key = k then v else mapGetStr rest key

/-- Modelled from the spec: assignment `letterMap[ch] = location` into a
`Map<char, string>` held in key order. -/
def mapSetStr (key : Char) (val : List Char) :
    List (Char × List Char) → List (Char × List Char)
  | [] => [(key, val)]
  | (k, v) :: rest =>
    if key = k then (k, val) :: rest
    else if key < k then (key, val) :: (k, v) :: rest
    else (k, v) :: mapSetStr key val rest

/-- `traverse` from `src/huffman.cpp` (lines 150-166): record each leaf's
root-to-leaf location string; the push/pop choreography on `location` in
the source amounts to recursing on the `zero` child with `location + '0'`
and then on the `one` child with `location + '1'`. -/
def traverse : ETree → List Char → List (Char × List Char) → List (Char × List Char)
  | .null, _, letterMap => letterMap
  | .node c z o, location, letterMap =>
    if (ETree.node c z o).isLeaf then mapSetStr c location letterMap
    else traverse o (location ++ ['1']) (traverse z (location ++ ['0']) letterMap)

/-- Modelled from the spec: `charToInteger` (from `strlib.h`) composed with
the `Bit`-from-`int` conversion of `bits.h`; location strings contain only
the characters `0` and `1`. -/
def charToBit (c : Char) : Bool := c = '1'

/-- `encodeText` from `src/huffman.cpp` (lines 179-191). -/
def encodeText (tree : ETree) (text : String) : List Bool :=
  let letterMap := traverse tree [] []
  text.data.foldl
    (fun encoded letter => encoded ++ (mapGetStr letterMap letter).map charToBit) []

/-- `flattenTree` from `src/huffman.cpp` (lines 204-215), with the two
queues passed and returned explicitly. -/
def flattenTree : ETree → List Bool → List Char → List Bool × List Char
  | .null, treeShape, treeLeaves => (treeShape, treeLeaves)
  | .node c z o, treeShape, treeLeaves =>
    if (ETree.node c z o).isLeaf then (treeShape ++ [false], treeLeaves ++ [c])
    else
      let p := flattenTree z (treeShape ++ [true]) treeLeaves
      flattenTree o p.1 p.2

/-- `compress` from `src/huffman.cpp` (lines 230-243).  The guard on line
231 compares the *length* of the text with 2; `error(...)` is modelled as
`none`. -/
def compress (messageText : String) : Option EncodedData :=
  if messageText.length < 2 then none
  else
    match buildHuffmanTree messageText with
    | none => none
    | some huffmanTree =>
      let flat := flattenTree huffmanTree [] []
      some { treeShape := flat.1, treeLeaves := flat.2,
             messageBits := encodeText huffmanTree messageText }

/-- `createExampleTree` from `src/huffman.cpp` (lines 249-267): the
canonical reference tree root -> (T, ((R, S), E)). -/
def createExampleTree : ETree :=
  ETree.node internalCh (ETree.node 'T' .null .null)
    (ETree.node internalCh
      (ETree.node internalCh (ETree.node 'R' .null .null) (ETree.node 'S' .null .null))
      (ETree.node 'E' .null .null))

/-- Whether a tree value is the null pointer. -/
def isNull : ETree → Bool
  | .null => true
  | .node _ _ _ => false

/-- `areEqual` from `src/huffman.cpp` (lines 281-306), reproduced exactly:
the two recursive comparisons on lines 295-298 are computed and their
results discarded, and the null-asymmetry checks on lines 300-303 are the
literal conditions of the source.  The C++ function dereferences both
arguments, so the model is only meaningful on non-null arguments. -/
def areEqual : ETree → ETree → Bool
  | .null, _ => true
  | .node _ _ _, .null => true
  | a@(.node _ az ao), b@(.node _ bz bo) =>
    if a.isLeaf && !b.isLeaf then false
    else if !a.isLeaf && b.isLeaf then false
    else if a.isLeaf && b.isLeaf then
      if a.getChar ≠ b.getChar then false else true
    else
      let _ := if !(isNull az) && !(isNull bz) then areEqual az bz else true
      let _ := if !(isNull ao) && !(isNull bo) then areEqual ao bo else true
      if isNull az && !(isNull bz) then !(!(isNull az) && isNull bz)
      else if isNull ao && !(isNull bo) then !(!(isNull ao) && isNull bo)
      else true

/-- The full-binary-tree invariant of the spec: a (non-null) tree in which
every node is either a leaf (both children absent) or an internal node with
both children present. -/
def wellFormed : ETree → Bool
  | .null => false
  | .node _ z o =>
    if isNull z && isNull o then true
    else !(isNull z) && !(isNull o) && wellFormed z && wellFormed o

/-- The leaf symbols of a tree, in zero-before-one (left-to-right) order. -/
def leafChars : ETree → List Char
  | .null => []
  | .node c z o => if isNull z && isNull o then [c] else leafChars z ++ leafChars o

/-- The tree that `buildHuffmanTree "STREETTEST"` actually constructs:
frequencies are R:1, S:2, E:3, T:4; after merging R and S (weight 3), the
weight-3 tie between the leaf E (enqueued first) and the merged (R,S)
subtree (enqueued later) is resolved in favour of E by the FIFO
tie-breaking rule, so E becomes the zero child: root -> (T, (E, (R, S))). -/
def streettestBuilt : ETree :=
  ETree.node internalCh (ETree.node 'T' .null .null)
    (ETree.node internalCh (ETree.node 'E' .null .null)
      (ETree.node internalCh (ETree.node 'R' .null .null) (ETree.node 'S' .null .null)))

/-- Structural equality of encoding trees, the notion used by the spec:
same node shape, and the same characters at corresponding leaves.  The
character field of an internal node is not compared (in the C++ original it
is never even initialised). -/
def structEq : ETree → ETree → Bool
  | .null, .null => true
  | .null, .node _ _ _ => false
  | .node _ _ _, .null => false
  | .node ac az ao, .node bc bz bo =>
    if isNull az && isNull ao then isNull bz && isNull bo && decide (ac = bc)
    else !(isNull bz && isNull bo) && structEq az bz && structEq ao bo

/-- Normalise the (unobservable) character field of internal nodes to
`internalCh`.  Trees built by `buildHuffmanTree`, `unflattenTree` and
`createExampleTree` are fixed points of this map. -/
def canonical : ETree → ETree
  | .null => .null
  | .node c z o =>
    if isNull z && isNull o then .node c z o
    else .node internalCh (canonical z) (canonical o)

/-- The shape queue produced by flattening a tree into empty queues. -/
def flatShape (t : ETree) : List Bool := (flattenTree t [] []).1

/-- The leaves queue produced by flattening a tree into empty queues. -/
def flatLeaves (t : ETree) : List Char := (flattenTree t [] []).2

/-- Compositional description of the shape queue written by `flattenTree`:
`ZERO` at a leaf, `ONE` followed by both children's shapes at an internal
node. -/
def shapeSpec : ETree → List Bool
  | .null => []
  | .node _ z o =>
    if isNull z && isNull o then [false] else true :: (shapeSpec z ++ shapeSpec o)

/-- A root-to-leaf path in a tree: `PathIn t p c` holds when following the
bits of `p` from `t` (zero child on `false`, one child on `true`) ends
exactly at a leaf holding `c`. -/
inductive PathIn : ETree → List Bool → Char → Prop where
  | here (c : Char) : PathIn (ETree.node c ETree.null ETree.null) [] c
  | zeroStep (x : Char) (z o : ETree) (p : List Bool) (c : Char) :
      PathIn z p c → PathIn (ETree.node x z o) (false :: p) c
  | oneStep (x : Char) (z o : ETree) (p : List Bool) (c : Char) :
      PathIn o p c → PathIn (ETree.node x z o) (true :: p) c

/-- The location string written by `traverse` for a path: `0` for a zero
step, `1` for a one step. -/
def pathChars (p : List Bool) : List Char :=
  p.map (fun b => if b then '1' else '0')

/-- Total weight of a tree under a frequency function: the sum of the
frequencies of its leaf characters. -/
def weightOf (w : Char → Nat) : ETree → Nat
  | .null => 0
  | .node c z o =>
    if isNull z && isNull o then w c else weightOf w z + weightOf w o

/-- Weighted path length (the cost Huffman's algorithm minimises) of a
tree: the sum over all leaves of frequency times root-to-leaf depth,
computed by the standard recursion `cost (node z o) = cost z + cost o +
weight z + weight o`. -/
def cost (w : Char → Nat) : ETree → Nat
  | .null => 0
  | .node _ z o =>
    if isNull z && isNull o then 0
    else cost w z + cost w o + weightOf w z + weightOf w o

/-- A binary shape whose leaves are labelled with encoding trees: one way
of combining a forest of trees into a single tree by repeated pairing. -/
inductive Sh where
  | lf (t : ETree) : Sh
  | nd (l r : Sh) : Sh
deriving DecidableEq

/-- The forest combined by a shape, in left-to-right order. -/
def front : Sh → List ETree
  | .lf t => [t]
  | .nd l r => front l ++ front r

/-- Total weight of the forest combined by a shape. -/
def shWeight (w : Char → Nat) : Sh → Nat
  | .lf t => weightOf w t
  | .nd l r => shWeight w l + shWeight w r

/-- Cost of the tree a shape combines its forest into: the cost of the
forest's trees plus the weighted depths of their positions. -/
def shCost (w : Char → Nat) : Sh → Nat
  | .lf t => cost w t
  | .nd l r => shCost w l + shCost w r + shWeight w l + shWeight w r

/-- Height of a shape: the depth of its deepest label position. -/
def maxD : Sh → Nat
  | .lf _ => 0
  | .nd l r => max (maxD l) (maxD r) + 1

/-- The function exchanging the two values `x` and `y`. -/
def swapFun (x y t : ETree) : ETree :=
  if t = x then y else if t = y then x else t

/-- Exchange the labels `x` and `y` wherever they occur in a shape. -/
def swapLb (x y : ETree) : Sh → Sh
  | .lf t => .lf (swapFun x y t)
  | .nd l r => .nd (swapLb x y l) (swapLb x y r)

/-- Depth of the label `x` in a shape (0 if absent). -/
def depthOf : Sh → ETree → Nat
  | .lf _, _ => 0
  | .nd l r, x =>
    if x ∈ front l then depthOf l x + 1
    else if x ∈ front r then depthOf r x + 1
    else 0

/-- One code word is an initial segment of another. -/
def isPrefOf (p q : List Bool) : Prop := ∃ r, p ++ r = q

/-- `MergePairD sh d a b sh'`: the shape `sh` contains two sibling label
positions holding `a` and `b` at depth `d`, and replacing that sibling
pair by a single position labelled with the merged tree `node a b` gives
`sh'`.  Such a replacement leaves the combined tree — and hence the cost —
unchanged. -/
inductive MergePairD : Sh → Nat → ETree → ETree → Sh → Prop where
  | here (a b : ETree) :
      MergePairD (.nd (.lf a) (.lf b)) 1 a b (.lf (ETree.node internalCh a b))
  | left (l r l' : Sh) (d : Nat) (a b : ETree) :
      MergePairD l d a b l' → MergePairD (.nd l r) (d + 1) a b (.nd l' r)
  | right (l r r' : Sh) (d : Nat) (a b : ETree) :
      MergePairD r d a b r' → MergePairD (.nd l r) (d + 1) a b (.nd l r')

/-! ## Theorems -/

/-- A node built from a tree by `canonical` is null exactly when the
original is. -/
theorem isNull_canonical (t : ETree) : isNull (canonical t) = isNull t := by
  cases t with
  | null => rfl
  | node c z o =>
    rw [canonical]
    split <;> rfl

/-- A leaf's `isLeaf` flag, in terms of `isNull` of the children. -/
theorem isLeaf_iff_isNull (c : Char) (z o : ETree) :
    (ETree.node c z o).isLeaf = (isNull z && isNull o) := by
  cases z <;> cases o <;> rfl

/-- `flattenTree` appends the compositional shape and leaves descriptions
to whatever the queues already contain. -/
theorem flattenTree_spec (t : ETree) (s : List Bool) (l : List Char) :
    flattenTree t s l = (s ++ shapeSpec t, l ++ leafChars t) := by
  induction t generalizing s l with
  | null => simp [flattenTree, shapeSpec, leafChars]
  | node c z o ihz iho =>
    rw [flattenTree.eq_2, isLeaf_iff_isNull]
    by_cases h : (isNull z && isNull o) = true
    · simp [h, shapeSpec, leafChars]
    · simp only [h, Bool.false_eq_true, if_false]
      rw [ihz]
      simp only []
      rw [iho]
      simp [shapeSpec, leafChars, h]

/-- The shape queue of a flattened tree is its compositional description. -/
theorem flatShape_eq (t : ETree) : flatShape t = shapeSpec t := by
  simp [flatShape, flattenTree_spec]

/-- The leaves queue of a flattened tree lists its leaf characters in
left-to-right order. -/
theorem flatLeaves_eq (t : ETree) : flatLeaves t = leafChars t := by
  simp [flatLeaves, flattenTree_spec]

/-- One step of `unflattenGo` on a leading `ONE` bit: parse the zero
subtree, then the one subtree from what remains. -/
theorem unflattenGo_step_true (fuel : Nat) (shape : List Bool) (leaves : List Char)
    (z : ETree) (s1 : List Bool) (l1 : List Char)
    (o : ETree) (s2 : List Bool) (l2 : List Char)
    (h1 : unflattenGo fuel shape leaves = some (z, s1, l1))
    (h2 : unflattenGo fuel s1 l1 = some (o, s2, l2)) :
    unflattenGo (fuel + 1) (true :: shape) leaves =
      some (ETree.node internalCh z o, s2, l2) := by
  cases leaves with
  | nil => simp [unflattenGo, h1, h2]
  | cons c cs => simp [unflattenGo, h1, h2]

/-- `unflattenGo`, given at least as much fuel as the shape of a
well-formed tree `t` is long, parses exactly that shape prefix (and the
corresponding leaf prefix) back into `t` (with internal characters
normalised), leaving the rest of both queues untouched. -/
theorem unflattenGo_spec (t : ETree) (hwf : wellFormed t = true) :
    ∀ (fuel : Nat) (s : List Bool) (l : List Char),
      (shapeSpec t).length ≤ fuel →
      unflattenGo fuel (shapeSpec t ++ s) (leafChars t ++ l) = some (canonical t, s, l) := by
  induction t with
  | null => simp [wellFormed] at hwf
  | node c z o ihz iho =>
    intro fuel s l hfuel
    by_cases h : (isNull z && isNull o) = true
    · obtain ⟨hz, ho⟩ := Bool.and_eq_true_iff.mp h
      cases z with
      | node _ _ _ => simp [isNull] at hz
      | null =>
        cases o with
        | node _ _ _ => simp [isNull] at ho
        | null =>
          cases fuel with
          | zero => simp [shapeSpec, isNull] at hfuel
          | succ fuel => simp [shapeSpec, leafChars, canonical, isNull, unflattenGo]
    · have hchild : wellFormed z = true ∧ wellFormed o = true := by
        rw [wellFormed] at hwf
        simp only [h, Bool.false_eq_true, if_false] at hwf
        simp only [Bool.and_eq_true] at hwf
        exact ⟨hwf.1.2, hwf.2⟩
      obtain ⟨hz, ho⟩ := hchild
      have hσ : shapeSpec (ETree.node c z o) = true :: (shapeSpec z ++ shapeSpec o) := by
        rw [shapeSpec]
        simp [h]
      have hLv : leafChars (ETree.node c z o) = leafChars z ++ leafChars o := by
        rw [leafChars]
        simp [h]
      cases fuel with
      | zero => rw [hσ] at hfuel; simp at hfuel
      | succ fuel =>
        rw [hσ, hLv, List.cons_append, List.append_assoc, List.append_assoc]
        have hflen : (shapeSpec z).length + (shapeSpec o).length ≤ fuel := by
          rw [hσ] at hfuel
          simp only [List.length_cons, List.length_append] at hfuel
          omega
        rw [unflattenGo_step_true fuel _ _ (canonical z) _ _ (canonical o) s l
          (ihz hz fuel (shapeSpec o ++ s) (leafChars o ++ l) (by omega))
          (iho ho fuel s l (by omega))]
        have : canonical (ETree.node c z o) =
            ETree.node internalCh (canonical z) (canonical o) := by
          rw [canonical]
          simp [h]
        rw [this]

/-- `canonical` only repaints internal characters, so the result is
structurally equal to the original tree. -/
theorem structEq_canonical (t : ETree) : structEq (canonical t) t = true := by
  induction t with
  | null => rfl
  | node c z o ihz iho =>
    by_cases h : (isNull z && isNull o) = true
    · obtain ⟨hz, ho⟩ := Bool.and_eq_true_iff.mp h
      cases z with
      | node _ _ _ => simp [isNull] at hz
      | null =>
        cases o with
        | node _ _ _ => simp [isNull] at ho
        | null => simp [canonical, structEq, isNull]
    · rw [canonical]
      simp only [h, Bool.false_eq_true, if_false]
      rw [structEq]
      simp [isNull_canonical, h, ihz, iho]

/-- `canonical` preserves well-formedness. -/
theorem wellFormed_canonical (t : ETree) : wellFormed (canonical t) = wellFormed t := by
  induction t with
  | null => rfl
  | node c z o ihz iho =>
    by_cases h : (isNull z && isNull o) = true
    · rw [canonical]
      simp [h]
    · rw [canonical]
      simp only [h, Bool.false_eq_true, if_false]
      rw [wellFormed, wellFormed]
      simp [isNull_canonical, h, ihz, iho]

/-- Membership in a queue after `pqEnqueue`: the new entry, or an old one. -/
theorem pqEnqueue_mem (x : ETree) (p : Nat) (q : List (Nat × ETree)) (e : Nat × ETree) :
    e ∈ pqEnqueue x p q ↔ e = (p, x) ∨ e ∈ q := by
  induction q with
  | nil => simp [pqEnqueue]
  | cons f rest ih =>
    obtain ⟨w, y⟩ := f
    by_cases h : p < w
    · simp [pqEnqueue, h]
    · simp [pqEnqueue, h, ih]
      tauto

/-- `pqEnqueue` grows the queue by exactly one entry. -/
theorem pqEnqueue_length (x : ETree) (p : Nat) (q : List (Nat × ETree)) :
    (pqEnqueue x p q).length = q.length + 1 := by
  induction q with
  | nil => rfl
  | cons f rest ih =>
    obtain ⟨w, y⟩ := f
    by_cases h : p < w <;> simp [pqEnqueue, h, ih]

/-- A node whose children are both well-formed is well-formed. -/
theorem wellFormed_node (x : Char) (z o : ETree)
    (hz : wellFormed z = true) (ho : wellFormed o = true) :
    wellFormed (ETree.node x z o) = true := by
  have hz0 : isNull z = false := by cases z with
    | null => simp [wellFormed] at hz
    | node _ _ _ => rfl
  have ho0 : isNull o = false := by cases o with
    | null => simp [wellFormed] at ho
    | node _ _ _ => rfl
  rw [wellFormed]
  simp [hz0, ho0, hz, ho]

/-- A node with a non-null child is not a leaf. -/
theorem isLeaf_false_of_wf_children (x : Char) (z o : ETree)
    (hz : wellFormed z = true) :
    (ETree.node x z o).isLeaf = false := by
  rw [isLeaf_iff_isNull]
  cases z with
  | null => simp [wellFormed] at hz
  | node _ _ _ => rfl

/-- `canonical` fixes a parent node whose children are non-null fixed
points. -/
theorem canonical_node (z o : ETree) (hz0 : isNull z = false)
    (hcz : canonical z = z) (hco : canonical o = o) :
    canonical (ETree.node internalCh z o) = ETree.node internalCh z o := by
  rw [canonical]
  simp [hz0, hcz, hco]

/-- The leaf characters of a non-leaf node are those of its children. -/
theorem leafChars_node (x : Char) (z o : ETree) (hz0 : isNull z = false) :
    leafChars (ETree.node x z o) = leafChars z ++ leafChars o := by
  rw [leafChars]
  simp [hz0]

/-- A well-formed tree has at least one leaf. -/
theorem leafChars_length_pos (t : ETree) (h : wellFormed t = true) :
    1 ≤ (leafChars t).length := by
  induction t with
  | null => simp [wellFormed] at h
  | node c z o ihz iho =>
    by_cases hn : (isNull z && isNull o) = true
    · rw [leafChars]
      simp [hn]
    · rw [wellFormed] at h
      simp only [hn, Bool.false_eq_true, if_false, Bool.and_eq_true] at h
      rw [leafChars]
      simp only [hn, Bool.false_eq_true, if_false, List.length_append]
      have := ihz h.1.2
      omega

/-- A well-formed internal tree has at least two leaves. -/
theorem leafChars_length_two (t : ETree) (h : wellFormed t = true)
    (hi : t.isLeaf = false) : 2 ≤ (leafChars t).length := by
  cases t with
  | null => simp [wellFormed] at h
  | node c z o =>
    rw [isLeaf_iff_isNull] at hi
    rw [wellFormed] at h
    simp only [hi, Bool.false_eq_true, if_false, Bool.and_eq_true] at h
    rw [leafChars]
    simp only [hi, Bool.false_eq_true, if_false, List.length_append]
    have h1 := leafChars_length_pos z h.1.2
    have h2 := leafChars_length_pos o h.2
    omega

/-- The merging loop preserves the queue invariant (all entries well-formed
canonical trees). -/
theorem huffmanLoopF_inv (lm : List (Char × Nat)) :
    ∀ (fuel : Nat) (q : List (Nat × ETree)),
      (∀ e ∈ q, wellFormed e.2 = true ∧ canonical e.2 = e.2) →
      ∀ e ∈ huffmanLoopF lm fuel q, wellFormed e.2 = true ∧ canonical e.2 = e.2 := by
  intro fuel
  induction fuel with
  | zero => intro q hq; simpa [huffmanLoopF] using hq
  | succ fuel ih =>
    intro q hq
    match q with
    | [] => simp [huffmanLoopF] at hq ⊢
    | [e] => simpa [huffmanLoopF] using hq
    | (p1, leftNode) :: (p2, rightNode) :: rest =>
      have hl := hq (p1, leftNode) (by simp)
      have hr := hq (p2, rightNode) (by simp)
      have hparent : wellFormed (ETree.node internalCh leftNode rightNode) = true :=
        wellFormed_node _ _ _ hl.1 hr.1
      have hpz : isNull leftNode = false := by
        cases leftNode with
        | null => simp [wellFormed] at hl
        | node _ _ _ => rfl
      have hcanon : canonical (ETree.node internalCh leftNode rightNode) =
          ETree.node internalCh leftNode rightNode :=
        canonical_node _ _ hpz hl.2 hr.2
      rw [huffmanLoopF]
      apply ih
      intro e he
      rcases (pqEnqueue_mem _ _ _ _).mp he with h | h
      · rw [h]
        exact ⟨hparent, hcanon⟩
      · exact hq e (by simp [h])

/-- The merging loop leaves a singleton queue alone. -/
theorem huffmanLoopF_singleton (lm : List (Char × Nat)) (fuel : Nat) (e : Nat × ETree) :
    huffmanLoopF lm fuel [e] = [e] := by
  cases fuel with
  | zero => rfl
  | succ fuel => rfl

/-- Main description of the merging loop: starting from a queue of at least
two well-formed canonical trees (with enough fuel), it ends with a single
internal, well-formed, canonical tree whose leaf characters are exactly
those of the queue's trees. -/
theorem huffmanLoopF_spec (lm : List (Char × Nat)) :
    ∀ (fuel : Nat) (q : List (Nat × ETree)),
      q.length ≤ fuel + 1 → 2 ≤ q.length →
      (∀ e ∈ q, wellFormed e.2 = true ∧ canonical e.2 = e.2) →
      ∃ p T, huffmanLoopF lm fuel q = [(p, T)] ∧ wellFormed T = true ∧
        canonical T = T ∧ T.isLeaf = false ∧
        (∀ c, c ∈ leafChars T ↔ ∃ e ∈ q, c ∈ leafChars e.2) := by
  intro fuel
  induction fuel with
  | zero => intro q hlen h2 _; omega
  | succ fuel ih =>
    intro q hlen h2 hq
    match q with
    | [] => simp at h2
    | [e] => simp at h2
    | (p1, leftNode) :: (p2, rightNode) :: rest =>
      have hl := hq (p1, leftNode) (by simp)
      have hr := hq (p2, rightNode) (by simp)
      have hpz : isNull leftNode = false := by
        cases leftNode with
        | null => simp [wellFormed] at hl
        | node _ _ _ => rfl
      have hparent : wellFormed (ETree.node internalCh leftNode rightNode) = true :=
        wellFormed_node _ _ _ hl.1 hr.1
      have hcanon : canonical (ETree.node internalCh leftNode rightNode) =
          ETree.node internalCh leftNode rightNode :=
        canonical_node _ _ hpz hl.2 hr.2
      have hchars : leafChars (ETree.node internalCh leftNode rightNode) =
          leafChars leftNode ++ leafChars rightNode := leafChars_node _ _ _ hpz
      rw [huffmanLoopF]
      cases rest with
      | nil =>
        refine ⟨textFrequency (ETree.node internalCh leftNode rightNode) lm,
          ETree.node internalCh leftNode rightNode, ?_, hparent, hcanon,
          isLeaf_false_of_wf_children _ _ _ hl.1, ?_⟩
        · exact huffmanLoopF_singleton lm fuel _
        · intro c
          rw [hchars]
          simp
      | cons f rest2 =>
        have hstep := ih
          (pqEnqueue (ETree.node internalCh leftNode rightNode)
            (textFrequency (ETree.node internalCh leftNode rightNode) lm) (f :: rest2))
          (by rw [pqEnqueue_length]; simp at hlen ⊢; omega)
          (by rw [pqEnqueue_length]; simp)
          (by
            intro e he
            rcases (pqEnqueue_mem _ _ _ _).mp he with h | h
            · rw [h]
              exact ⟨hparent, hcanon⟩
            · exact hq e (by simp [h]))
        obtain ⟨p, T, hres, hwf, hcan, hleaf, hin⟩ := hstep
        refine ⟨p, T, hres, hwf, hcan, hleaf, ?_⟩
        intro c
        rw [hin c]
        constructor
        · rintro ⟨e, he, hc⟩
          rcases (pqEnqueue_mem _ _ _ _).mp he with h | h
          · rw [h] at hc
            rw [hchars] at hc
            rcases List.mem_append.mp hc with h2 | h2
            · exact ⟨(p1, leftNode), by simp, h2⟩
            · exact ⟨(p2, rightNode), by simp, h2⟩
          · exact ⟨e, by simp [h], hc⟩
        · rintro ⟨e, he, hc⟩
          simp only [List.mem_cons] at he
          rcases he with h | h | h
          · refine ⟨(textFrequency (ETree.node internalCh leftNode rightNode) lm,
              ETree.node internalCh leftNode rightNode),
              (pqEnqueue_mem _ _ _ _).mpr (Or.inl rfl), ?_⟩
            subst h
            simp only at hc
            rw [hchars]
            simp [hc]
          · refine ⟨(textFrequency (ETree.node internalCh leftNode rightNode) lm,
              ETree.node internalCh leftNode rightNode),
              (pqEnqueue_mem _ _ _ _).mpr (Or.inl rfl), ?_⟩
            subst h
            simp only at hc
            rw [hchars]
            simp [hc]
          · exact ⟨e, (pqEnqueue_mem _ _ _ _).mpr (Or.inr (List.mem_cons.mpr h)), hc⟩

/-- Keys present after a `bumpFreq`: the bumped key or an old one. -/
theorem bumpFreq_mem_key (c x : Char) (m : List (Char × Nat)) :
    (∃ e ∈ bumpFreq c m, e.1 = x) ↔ x = c ∨ ∃ e ∈ m, e.1 = x := by
  induction m with
  | nil => simp [bumpFreq, eq_comm]
  | cons f rest ih =>
    obtain ⟨k, v⟩ := f
    by_cases h1 : c = k
    · subst h1
      have hbump : bumpFreq c ((c, v) :: rest) = (c, v + 1) :: rest := by
        simp [bumpFreq]
      rw [hbump]
      simp only [List.mem_cons]
      constructor
      · rintro ⟨e, h | h, hk⟩
        · rw [h] at hk
          exact Or.inl hk.symm
        · exact Or.inr ⟨e, Or.inr h, hk⟩
      · rintro (h | ⟨e, h | h, hk⟩)
        · exact ⟨(c, v + 1), Or.inl rfl, h.symm⟩
        · rw [h] at hk
          exact ⟨(c, v + 1), Or.inl rfl, hk⟩
        · exact ⟨e, Or.inr h, hk⟩
    · by_cases h2 : c < k
      · have hbump : bumpFreq c ((k, v) :: rest) = (c, 1) :: (k, v) :: rest := by
          simp [bumpFreq, h1, h2]
        rw [hbump]
        simp only [List.mem_cons]
        constructor
        · rintro ⟨e, h | h, hk⟩
          · rw [h] at hk
            exact Or.inl hk.symm
          · exact Or.inr ⟨e, h, hk⟩
        · rintro (h | ⟨e, h, hk⟩)
          · exact ⟨(c, 1), Or.inl rfl, h.symm⟩
          · exact ⟨e, Or.inr h, hk⟩
      · have hbump : bumpFreq c ((k, v) :: rest) = (k, v) :: bumpFreq c rest := by
          simp [bumpFreq, h1, h2]
        rw [hbump]
        simp only [List.mem_cons]
        constructor
        · rintro ⟨e, h | h, hk⟩
          · exact Or.inr ⟨e, Or.inl h, hk⟩
          · rcases (ih).mp ⟨e, h, hk⟩ with h3 | ⟨e2, h3, hk3⟩
            · exact Or.inl h3
            · exact Or.inr ⟨e2, Or.inr h3, hk3⟩
        · rintro (h | ⟨e, h | h, hk⟩)
          · obtain ⟨e, hm, hk⟩ := (ih).mpr (Or.inl h)
            exact ⟨e, Or.inr hm, hk⟩
          · exact ⟨e, Or.inl h, hk⟩
          · obtain ⟨e2, hm, hk2⟩ := (ih).mpr (Or.inr ⟨e, h, hk⟩)
            exact ⟨e2, Or.inr hm, hk2⟩

/-- Keys of the folded frequency map: old keys plus the text's characters. -/
theorem foldl_bumpFreq_mem (l : List Char) :
    ∀ (m0 : List (Char × Nat)) (x : Char),
      (∃ e ∈ l.foldl (fun m c => bumpFreq c m) m0, e.1 = x) ↔
        (∃ e ∈ m0, e.1 = x) ∨ x ∈ l := by
  induction l with
  | nil => simp
  | cons c rest ih =>
    intro m0 x
    simp only [List.foldl_cons, ih, bumpFreq_mem_key, List.mem_cons]
    constructor
    · rintro ((h | h) | h)
      · exact Or.inr (Or.inl h)
      · exact Or.inl h
      · exact Or.inr (Or.inr h)
    · rintro (h | h | h)
      · exact Or.inl (Or.inr h)
      · exact Or.inl (Or.inl h)
      · exact Or.inr h

/-- The keys of `letterMapOf text` are exactly the characters of `text`. -/
theorem letterMapOf_mem_key (t : List Char) (x : Char) :
    (∃ e ∈ letterMapOf t, e.1 = x) ↔ x ∈ t := by
  rw [letterMapOf, foldl_bumpFreq_mem]
  simp

/-- A list containing two distinct elements has length at least two. -/
theorem two_mem_length {α : Type} (l : List α) (a b : α)
    (ha : a ∈ l) (hb : b ∈ l) (hab : a ≠ b) : 2 ≤ l.length := by
  match l with
  | [] => simp at ha
  | [x] =>
    simp at ha hb
    rw [ha, hb] at hab
    exact absurd rfl hab
  | x :: y :: rest => simp only [List.length_cons]; omega

/-- Entries of the seeded queue: one leaf per frequency-map entry. -/
theorem foldl_pqEnqueue_mem (lm : List (Char × Nat)) :
    ∀ (q0 : List (Nat × ETree)) (e : Nat × ETree),
      e ∈ lm.foldl (fun q kv => pqEnqueue (ETree.node kv.1 .null .null) kv.2 q) q0 ↔
        e ∈ q0 ∨ ∃ kv ∈ lm, e = (kv.2, ETree.node kv.1 .null .null) := by
  induction lm with
  | nil => simp
  | cons kv rest ih =>
    intro q0 e
    simp only [List.foldl_cons, ih, pqEnqueue_mem, List.mem_cons]
    constructor
    · rintro (⟨h | h⟩ | h)
      · exact Or.inr ⟨kv, Or.inl rfl, h⟩
      · exact Or.inl h
      · obtain ⟨kv2, hm, he⟩ := h
        exact Or.inr ⟨kv2, Or.inr hm, he⟩
    · rintro (h | ⟨kv2, hm | hm, he⟩)
      · exact Or.inl (Or.inr h)
      · rw [hm] at he
        exact Or.inl (Or.inl he)
      · exact Or.inr ⟨kv2, hm, he⟩

/-- Entries of `seedQueue`. -/
theorem seedQueue_mem (lm : List (Char × Nat)) (e : Nat × ETree) :
    e ∈ seedQueue lm ↔ ∃ kv ∈ lm, e = (kv.2, ETree.node kv.1 .null .null) := by
  rw [seedQueue, foldl_pqEnqueue_mem]
  simp

/-- The seeded queue has one entry per frequency-map entry. -/
theorem foldl_pqEnqueue_length (lm : List (Char × Nat)) :
    ∀ q0 : List (Nat × ETree),
      (lm.foldl (fun q kv => pqEnqueue (ETree.node kv.1 .null .null) kv.2 q) q0).length =
        q0.length + lm.length := by
  induction lm with
  | nil => simp
  | cons kv rest ih =>
    intro q0
    simp only [List.foldl_cons, ih, pqEnqueue_length, List.length_cons]
    omega

/-- Length of `seedQueue`. -/
theorem seedQueue_length (lm : List (Char × Nat)) :
    (seedQueue lm).length = lm.length := by
  rw [seedQueue, foldl_pqEnqueue_length]
  simp

/-- Full description of `buildHuffmanTree` on a text with two distinct
characters: it succeeds, and the resulting tree is well-formed, canonical,
internal at the root, and has exactly the text's characters as leaves. -/
theorem buildHuffmanTree_spec (text : String) (a b : Char)
    (ha : a ∈ text.data) (hb : b ∈ text.data) (hab : a ≠ b) :
    ∃ T, buildHuffmanTree text = some T ∧ wellFormed T = true ∧ canonical T = T ∧
      T.isLeaf = false ∧ (∀ c, c ∈ leafChars T ↔ c ∈ text.data) := by
  have hA : ∃ e ∈ letterMapOf text.data, e.1 = a := (letterMapOf_mem_key _ _).mpr ha
  have hB : ∃ e ∈ letterMapOf text.data, e.1 = b := (letterMapOf_mem_key _ _).mpr hb
  obtain ⟨ea, hea, hka⟩ := hA
  obtain ⟨eb, heb, hkb⟩ := hB
  have hne : ea ≠ eb := by
    intro h
    rw [h, hkb] at hka
    exact hab hka.symm
  have hlen2 : 2 ≤ (letterMapOf text.data).length := two_mem_length _ ea eb hea heb hne
  have hq2 : 2 ≤ (seedQueue (letterMapOf text.data)).length := by
    rw [seedQueue_length]
    exact hlen2
  have hinv : ∀ e ∈ seedQueue (letterMapOf text.data),
      wellFormed e.2 = true ∧ canonical e.2 = e.2 := by
    intro e he
    obtain ⟨kv, _, hkv⟩ := (seedQueue_mem _ _).mp he
    rw [hkv]
    exact ⟨rfl, rfl⟩
  obtain ⟨p, T, hres, hwf, hcan, hleaf, hchars⟩ :=
    huffmanLoopF_spec (letterMapOf text.data) (seedQueue (letterMapOf text.data)).length
      (seedQueue (letterMapOf text.data)) (by omega) hq2 hinv
  have hres2 : huffmanLoop (letterMapOf text.data) (seedQueue (letterMapOf text.data)) =
      [(p, T)] := hres
  refine ⟨T, ?_, hwf, hcan, hleaf, ?_⟩
  · rw [buildHuffmanTree]
    simp only [hres2]
  · intro c
    rw [hchars c]
    constructor
    · rintro ⟨e, he, hc⟩
      obtain ⟨kv, hkv, hekv⟩ := (seedQueue_mem _ _).mp he
      rw [hekv] at hc
      simp only [leafChars, isNull, Bool.and_self, if_true, List.mem_singleton] at hc
      rw [hc]
      exact (letterMapOf_mem_key _ _).mp ⟨kv, hkv, rfl⟩
    · intro hc
      obtain ⟨e, he, hke⟩ := (letterMapOf_mem_key _ _).mpr hc
      refine ⟨(e.2, ETree.node e.1 .null .null), (seedQueue_mem _ _).mpr ⟨e, he, rfl⟩, ?_⟩
      simp [leafChars, isNull, hke]

/-- C4: for every well-formed encoding tree `t`, unflattening the shape
and leaves queues produced by flattening `t` succeeds, consumes both queues
entirely, and yields a tree structurally equal to `t` (it is `canonical t`,
which differs from `t` at most in the never-observed character field of
internal nodes). -/
theorem c4_unflatten_flatten (t : ETree) (h : wellFormed t = true) :
    unflattenTree (flatShape t) (flatLeaves t) = some (canonical t, [], []) ∧
    structEq (canonical t) t = true := by
  constructor
  · rw [flatShape_eq, flatLeaves_eq, unflattenTree]
    have hmain := unflattenGo_spec t h (shapeSpec t).length [] [] (le_refl _)
    simpa using hmain
  · exact structEq_canonical t

/-- C4 witness: the round trip through flatten and unflatten at the
canonical example tree. -/
theorem c4_witness :
    wellFormed createExampleTree = true ∧
    (unflattenTree (flatShape createExampleTree) (flatLeaves createExampleTree) =
        some (canonical createExampleTree, [], []) ∧
      structEq (canonical createExampleTree) createExampleTree = true) :=
  ⟨by decide, c4_unflatten_flatten createExampleTree (by decide)⟩

/-- A tree with a path in it is a (non-null) node. -/
theorem pathIn_node (t : ETree) (p : List Bool) (c : Char) (h : PathIn t p c) :
    ∃ x z o, t = ETree.node x z o := by
  cases h with
  | here c => exact ⟨c, ETree.null, ETree.null, rfl⟩
  | zeroStep x z o p c _ => exact ⟨x, z, o, rfl⟩
  | oneStep x z o p c _ => exact ⟨x, z, o, rfl⟩

/-- The empty path ends at the root, so the root is a leaf holding `c`. -/
theorem pathIn_nil (t : ETree) (c : Char) (h : PathIn t [] c) :
    t = ETree.node c ETree.null ETree.null := by
  cases h
  rfl

/-- A tree in which a nonempty path starts is not a leaf. -/
theorem pathIn_cons_isLeaf_false (t : ETree) (b : Bool) (q : List Bool) (c : Char)
    (h : PathIn t (b :: q) c) : t.isLeaf = false := by
  cases h with
  | zeroStep x z o _ _ hz =>
    obtain ⟨x2, z2, o2, hz2⟩ := pathIn_node z q c hz
    rw [hz2, isLeaf_iff_isNull]
    simp [isNull]
  | oneStep x z o _ _ ho =>
    obtain ⟨x2, z2, o2, ho2⟩ := pathIn_node o q c ho
    rw [ho2, isLeaf_iff_isNull]
    simp [isNull]

/-- Decoding walks exactly one root-to-leaf path: consuming the path's bits
from the root emits the leaf's character and resets the cursor to the root. -/
theorem decodeLoop_path (tree : ETree) (temp : ETree) (p : List Bool) (c : Char)
    (h : PathIn temp p c) :
    p ≠ [] → ∀ (rest : List Bool) (acc : List Char),
      decodeLoop tree temp (p ++ rest) acc = decodeLoop tree tree rest (acc ++ [c]) := by
  induction h with
  | here c => intro hne; exact absurd rfl hne
  | zeroStep x z o p c hz ih =>
    intro _ rest acc
    cases p with
    | nil =>
      rw [pathIn_nil z c hz]
      simp [decodeLoop, ETree.zero, ETree.isLeaf, ETree.getChar]
    | cons b p2 =>
      have hzleaf : z.isLeaf = false := pathIn_cons_isLeaf_false z b p2 c hz
      rw [List.cons_append]
      rw [decodeLoop.eq_2]
      simp only [Bool.false_eq_true, if_false, ETree.zero, hzleaf]
      exact ih (by simp) rest acc
  | oneStep x z o p c ho ih =>
    intro _ rest acc
    cases p with
    | nil =>
      rw [pathIn_nil o c ho]
      simp [decodeLoop, ETree.one, ETree.isLeaf, ETree.getChar]
    | cons b p2 =>
      have holeaf : o.isLeaf = false := pathIn_cons_isLeaf_false o b p2 c ho
      rw [List.cons_append]
      rw [decodeLoop.eq_2]
      simp only [if_true, ETree.one, holeaf]
      exact ih (by simp) rest acc

/-- Reading a map after `mapSetStr`: the new binding shadows the old. -/
theorem mapGetStr_set (k x : Char) (v : List Char) (m : List (Char × List Char)) :
    mapGetStr (mapSetStr k v m) x = if x = k then v else mapGetStr m x := by
  induction m with
  | nil =>
    simp [mapSetStr, mapGetStr]
  | cons f rest ih =>
    obtain ⟨k1, v1⟩ := f
    by_cases h1 : k = k1
    · subst h1
      have hset : mapSetStr k v ((k, v1) :: rest) = (k, v) :: rest := by
        simp [mapSetStr]
      rw [hset]
      by_cases hx : x = k <;> simp [mapGetStr, hx]
    · by_cases h2 : k < k1
      · have hset : mapSetStr k v ((k1, v1) :: rest) = (k, v) :: (k1, v1) :: rest := by
          simp [mapSetStr, h1, h2]
        rw [hset]
        by_cases hx : x = k
        · simp [mapGetStr, hx]
        · simp only [mapGetStr, if_neg hx]
      · have hset : mapSetStr k v ((k1, v1) :: rest) = (k1, v1) :: mapSetStr k v rest := by
          simp [mapSetStr, h1, h2]
        rw [hset]
        by_cases hx : x = k1
        · have hxk : ¬x = k := by
            rw [hx]
            exact fun hh => h1 hh.symm
          have h1s : ¬k1 = k := fun hh => h1 hh.symm
          simp [mapGetStr, hx, hxk, h1s]
        · simp only [mapGetStr, if_neg hx, ih]

/-- What `traverse` records: every leaf character of a well-formed tree `t`
gets bound to `loc` followed by the `0`/`1` rendering of some root-to-leaf
path reaching it, and bindings of characters that are not leaves of `t` are
left alone. -/
theorem traverse_spec (t : ETree) (hwf : wellFormed t = true) :
    ∀ (loc : List Char) (m : List (Char × List Char)),
      (∀ c, c ∈ leafChars t → ∃ p, PathIn t p c ∧
        mapGetStr (traverse t loc m) c = loc ++ pathChars p) ∧
      (∀ c, c ∉ leafChars t → mapGetStr (traverse t loc m) c = mapGetStr m c) := by
  induction t with
  | null => simp [wellFormed] at hwf
  | node x z o ihz iho =>
    intro loc m
    by_cases h : (isNull z && isNull o) = true
    · have hleaf : (ETree.node x z o).isLeaf = true := by
        rw [isLeaf_iff_isNull, h]
      have htrav : traverse (ETree.node x z o) loc m = mapSetStr x loc m := by
        rw [traverse.eq_2, hleaf]
        simp
      have hchars : leafChars (ETree.node x z o) = [x] := by
        rw [leafChars]
        simp [h]
      obtain ⟨hz0, ho0⟩ := Bool.and_eq_true_iff.mp h
      have hz1 : z = ETree.null := by
        cases z with
        | null => rfl
        | node _ _ _ => simp [isNull] at hz0
      have ho1 : o = ETree.null := by
        cases o with
        | null => rfl
        | node _ _ _ => simp [isNull] at ho0
      constructor
      · intro c hc
        rw [hchars] at hc
        simp only [List.mem_singleton] at hc
        subst hc
        refine ⟨[], ?_, ?_⟩
        · rw [hz1, ho1]
          exact PathIn.here c
        · rw [htrav, mapGetStr_set]
          simp [pathChars]
      · intro c hc
        rw [hchars] at hc
        simp only [List.mem_singleton] at hc
        rw [htrav, mapGetStr_set, if_neg hc]
    · rw [Bool.not_eq_true] at h
      have hleaf : (ETree.node x z o).isLeaf = false := by
        rw [isLeaf_iff_isNull, h]
      have hwfc : wellFormed z = true ∧ wellFormed o = true := by
        rw [wellFormed] at hwf
        simp only [h, Bool.false_eq_true, if_false, Bool.and_eq_true] at hwf
        exact ⟨hwf.1.2, hwf.2⟩
      have htrav : traverse (ETree.node x z o) loc m =
          traverse o (loc ++ ['1']) (traverse z (loc ++ ['0']) m) := by
        rw [traverse.eq_2, hleaf]
        simp
      have hchars : leafChars (ETree.node x z o) = leafChars z ++ leafChars o := by
        rw [leafChars]
        simp [h]
      constructor
      · intro c hc
        rw [hchars] at hc
        by_cases hco : c ∈ leafChars o
        · obtain ⟨p, hp, hget⟩ :=
            ((iho hwfc.2 (loc ++ ['1']) (traverse z (loc ++ ['0']) m)).1) c hco
          refine ⟨true :: p, PathIn.oneStep x z o p c hp, ?_⟩
          rw [htrav, hget]
          simp [pathChars]
        · have hcz : c ∈ leafChars z := by
            rcases List.mem_append.mp hc with h2 | h2
            · exact h2
            · exact absurd h2 hco
          obtain ⟨p, hp, hget⟩ :=
            ((ihz hwfc.1 (loc ++ ['0']) m).1) c hcz
          refine ⟨false :: p, PathIn.zeroStep x z o p c hp, ?_⟩
          rw [htrav,
            ((iho hwfc.2 (loc ++ ['1']) (traverse z (loc ++ ['0']) m)).2) c hco, hget]
          simp [pathChars]
      · intro c hc
        rw [hchars] at hc
        simp only [List.mem_append, not_or] at hc
        rw [htrav,
          ((iho hwfc.2 (loc ++ ['1']) (traverse z (loc ++ ['0']) m)).2) c hc.2,
          ((ihz hwfc.1 (loc ++ ['0']) m).2) c hc.1]

/-- Reading back the bits of a rendered path gives the path. -/
theorem pathChars_map (p : List Bool) : (pathChars p).map charToBit = p := by
  induction p with
  | nil => rfl
  | cons b rest ih =>
    cases b <;> simp [pathChars, charToBit] at ih ⊢ <;> exact ih

/-- The encoding fold is the concatenation of the per-character codes. -/
theorem foldl_encode_join (f : Char → List Bool) (l : List Char) :
    ∀ acc : List Bool,
      l.foldl (fun e letter => e ++ f letter) acc = acc ++ (l.map f).flatten := by
  induction l with
  | nil => simp
  | cons c rest ih =>
    intro acc
    simp only [List.foldl_cons, List.map_cons, List.flatten_cons, ih, List.append_assoc]

/-- Decoding the concatenated codes of a list of characters (all of them
leaves of a well-formed non-leaf tree) recovers the list. -/
theorem decodeLoop_encode (T : ETree) (hwf : wellFormed T = true)
    (hleaf : T.isLeaf = false) :
    ∀ (chars : List Char) (acc : List Char), (∀ c ∈ chars, c ∈ leafChars T) →
      decodeLoop T T
        ((chars.map
          (fun letter => (mapGetStr (traverse T [] []) letter).map charToBit)).flatten)
        acc = acc ++ chars := by
  intro chars
  induction chars with
  | nil => intro acc _; simp [decodeLoop]
  | cons c rest ih =>
    intro acc hin
    obtain ⟨p, hp, hget⟩ := ((traverse_spec T hwf [] []).1) c (hin c (by simp))
    simp only [List.nil_append] at hget
    have hcode : (mapGetStr (traverse T [] []) c).map charToBit = p := by
      rw [hget, pathChars_map]
    have hpne : p ≠ [] := by
      intro hp0
      rw [hp0] at hp
      have := pathIn_nil T c hp
      rw [this] at hleaf
      simp [ETree.isLeaf] at hleaf
    simp only [List.map_cons, List.flatten_cons, hcode]
    rw [decodeLoop_path T T p c hp hpne]
    rw [ih (acc ++ [c]) (fun d hd => hin d (by simp [hd]))]
    simp

/-- Encode-then-decode identity for any well-formed tree with an internal
root, on text whose characters all appear among the tree's leaves. -/
theorem decodeText_encodeText (T : ETree) (hwf : wellFormed T = true)
    (hleaf : T.isLeaf = false) (text : String)
    (hin : ∀ c ∈ text.data, c ∈ leafChars T) :
    decodeText T (encodeText T text) = text := by
  rw [decodeText, encodeText]
  rw [foldl_encode_join]
  rw [List.nil_append]
  rw [decodeLoop_encode T hwf hleaf text.data [] hin]
  rw [List.nil_append]

/-- A well-formed tree with at least two leaves is not itself a leaf. -/
theorem isLeaf_false_of_two (T : ETree) (hwf : wellFormed T = true)
    (hn : 2 ≤ (leafChars T).length) : T.isLeaf = false := by
  cases T with
  | null => simp [wellFormed] at hwf
  | node x z o =>
    by_cases h : (isNull z && isNull o) = true
    · rw [leafChars] at hn
      simp only [h, if_true, List.length_singleton] at hn
      omega
    · rw [Bool.not_eq_true] at h
      rw [isLeaf_iff_isNull]
      exact h

/-- C5: for every well-formed encoding tree with at least two leaves and
every text whose characters all appear among the tree's leaves, decoding
the encoding of the text against the same tree gives the text back. -/
theorem c5_decode_encode (T : ETree) (t : String) (hwf : wellFormed T = true)
    (hn : 2 ≤ (leafChars T).length) (hin : ∀ c ∈ t.data, c ∈ leafChars T) :
    decodeText T (encodeText T t) = t :=
  decodeText_encodeText T hwf (isLeaf_false_of_two T hwf hn) t hin

/-- C5 witness: encode and decode `"SET"` against the example tree. -/
theorem c5_witness :
    wellFormed createExampleTree = true ∧
    2 ≤ (leafChars createExampleTree).length ∧
    (∀ c ∈ "SET".data, c ∈ leafChars createExampleTree) ∧
    decodeText createExampleTree (encodeText createExampleTree "SET") = "SET" :=
  ⟨by decide, by decide, by decide,
    c5_decode_encode createExampleTree "SET" (by decide) (by decide) (by decide)⟩

/-- C9: every tree returned by `buildHuffmanTree` (in fact on any input on
which it succeeds), and every tree returned by `unflattenTree` on a
well-formed flattened pair (the output of `flattenTree` on a well-formed
tree), satisfies the full-binary invariant: every node is a leaf or has
both children present. -/
theorem c9_full_binary :
    (∀ (text : String) (T : ETree), buildHuffmanTree text = some T →
      wellFormed T = true) ∧
    (∀ (t T : ETree) (s : List Bool) (l : List Char), wellFormed t = true →
      unflattenTree (flatShape t) (flatLeaves t) = some (T, s, l) →
      wellFormed T = true) := by
  constructor
  · intro text T h
    rw [buildHuffmanTree] at h
    rcases hq : huffmanLoop (letterMapOf text.data) (seedQueue (letterMapOf text.data))
      with _ | ⟨⟨p0, t0⟩, tail⟩
    · rw [hq] at h
      simp at h
    · rw [hq] at h
      simp only [Option.some.injEq] at h
      have hinv : ∀ e ∈ seedQueue (letterMapOf text.data),
          wellFormed e.2 = true ∧ canonical e.2 = e.2 := by
        intro e he
        obtain ⟨kv, _, hkv⟩ := (seedQueue_mem _ _).mp he
        rw [hkv]
        exact ⟨rfl, rfl⟩
      have hq2 : huffmanLoopF (letterMapOf text.data)
          (seedQueue (letterMapOf text.data)).length
          (seedQueue (letterMapOf text.data)) = (p0, t0) :: tail := hq
      have hfin := huffmanLoopF_inv (letterMapOf text.data)
        (seedQueue (letterMapOf text.data)).length
        (seedQueue (letterMapOf text.data)) hinv (p0, t0) (by rw [hq2]; simp)
      rw [← h]
      exact hfin.1
  · intro t T s l hwf h
    rw [flatShape_eq, flatLeaves_eq, unflattenTree] at h
    have hspec := unflattenGo_spec t hwf (shapeSpec t).length [] [] (le_refl _)
    simp only [List.append_nil] at hspec
    rw [hspec] at h
    simp only [Option.some.injEq, Prod.mk.injEq] at h
    rw [← h.1, wellFormed_canonical]
    exact hwf

/-- C9 witness: the tree built from `"AB"` and the tree unflattened from
the flattened example tree. -/
theorem c9_witness :
    wellFormed (ETree.node internalCh (ETree.node 'A' .null .null)
      (ETree.node 'B' .null .null)) = true ∧
    wellFormed (canonical createExampleTree) = true :=
  ⟨c9_full_binary.1 "AB"
      (ETree.node internalCh (ETree.node 'A' .null .null) (ETree.node 'B' .null .null))
      (by decide),
   c9_full_binary.2 createExampleTree (canonical createExampleTree) [] []
      (by decide) (by decide)⟩

/-- C1: the compress/decompress round trip restores any text containing
two distinct characters `a` and `b`. -/
theorem c1_roundtrip (t : String) (a b : Char) (ha : a ∈ t.data) (hb : b ∈ t.data)
    (hab : a ≠ b) : (compress t).bind decompress = some t := by
  obtain ⟨T, hbuild, hwf, hcan, hleaf, hchars⟩ := buildHuffmanTree_spec t a b ha hb hab
  have hlen : ¬(t.length < 2) := by
    have h2 : 2 ≤ t.data.length := two_mem_length t.data a b ha hb hab
    have hL : t.length = t.data.length := rfl
    omega
  have hflat : flattenTree T [] [] = (shapeSpec T, leafChars T) := by
    rw [flattenTree_spec]
    simp
  have hcomp : compress t = some (EncodedData.mk (shapeSpec T) (leafChars T)
      (encodeText T t)) := by
    rw [compress, if_neg hlen, hbuild]
    simp only [hflat]
  have hun : unflattenTree (shapeSpec T) (leafChars T) = some (T, [], []) := by
    rw [unflattenTree]
    have hspec := unflattenGo_spec T hwf (shapeSpec T).length [] [] (le_refl _)
    simp only [List.append_nil] at hspec
    rw [hspec, hcan]
  have hdec : decompress (EncodedData.mk (shapeSpec T) (leafChars T)
      (encodeText T t)) = some (decodeText T (encodeText T t)) := by
    rw [decompress]
    simp only [hun]
  rw [hcomp, Option.some_bind, hdec,
    decodeText_encodeText T hwf hleaf t (fun c hc => (hchars c).mpr hc)]

/-- C1 witness: the round trip on `"STREETTEST"`, which contains the two
distinct characters `S` and `T`. -/
theorem c1_witness :
    'S' ∈ "STREETTEST".data ∧ 'T' ∈ "STREETTEST".data ∧ 'S' ≠ 'T' ∧
    (compress "STREETTEST").bind decompress = some "STREETTEST" :=
  ⟨by decide, by decide, by decide,
    c1_roundtrip "STREETTEST" 'S' 'T' (by decide) (by decide) (by decide)⟩

/-- C10: `unflattenTree` applied to an empty shape queue and any leaves
queue returns the null tree — no error, no node constructed — and leaves
the leaves queue untouched. -/
theorem c10_unflatten_empty_shape (treeLeaves : List Char) :
    unflattenTree [] treeLeaves = some (ETree.null, [], treeLeaves) := rfl

/-- C2: contrary to the claim, `buildHuffmanTree` never reports
`InsufficientAlphabet`: on `"A"` and `"AAAA"` (a single distinct symbol) it
silently returns a single-leaf tree, and only on `""` does it fail — and
then with the library's empty-dequeue error, not `InsufficientAlphabet`. -/
theorem c2_buildHuffmanTree_missing_error :
    buildHuffmanTree "A" = some (ETree.node 'A' .null .null) ∧
    buildHuffmanTree "AAAA" = some (ETree.node 'A' .null .null) ∧
    buildHuffmanTree "" = none := by
  refine ⟨by decide, by decide, by decide⟩

/-- C3: contrary to the claim, `compress "AAAA"` does not fail: the guard
on line 231 tests the length of the text, not its number of distinct
symbols, so `compress "AAAA"` returns a partial-looking record with a
single-leaf tree and an empty bit sequence, while `compress ""` and
`compress "A"` do fail (length < 2). -/
theorem c3_compress_missing_error :
    compress "AAAA" = some (EncodedData.mk [false] ['A'] []) ∧
    compress "" = none ∧
    compress "A" = none := by
  refine ⟨by decide, by decide, by decide⟩

/-- C6 counterexample: with the spec's FIFO tie-breaking priority queue,
`buildHuffmanTree "STREETTEST"` returns root -> (T, (E, (R, S))), which is
not structurally equal to the canonical reference tree
root -> (T, ((R, S), E)): the flattened forms differ as well. -/
theorem c6_counterexample :
    buildHuffmanTree "STREETTEST" = some streettestBuilt ∧
    streettestBuilt ≠ createExampleTree ∧
    flattenTree streettestBuilt [] [] ≠ flattenTree createExampleTree [] [] := by
  refine ⟨by decide, by decide, by decide⟩

/-- C6 amended: with equal-weight entries dequeued in insertion order and
the first dequeued entry becoming the zero child, `buildHuffmanTree
"STREETTEST"` returns root -> (T, (E, (R, S))) — the earlier-enqueued leaf
E wins the weight-3 tie against the merged (R, S) subtree — a tree that is
not structurally equal to the canonical reference tree, although the
implemented `areEqual` (which discards its recursive results) reports the
two as equal. -/
theorem c6_amended :
    buildHuffmanTree "STREETTEST" = some streettestBuilt ∧
    streettestBuilt ≠ createExampleTree ∧
    areEqual streettestBuilt createExampleTree = true := by
  refine ⟨by decide, by decide, by decide⟩

/-- C7: contrary to the claim, `areEqual` does not decide structural
equality: it returns `true` for the example tree against the lopsided tree
`(T, null)` (the repository's own `STUDENT_TEST` expects `false` here),
and `true` for two trees whose leaves hold different characters, because
the recursive comparisons on lines 295-298 are discarded. -/
theorem c7_areEqual_not_structural :
    areEqual createExampleTree
      (ETree.node internalCh (ETree.node 'T' .null .null) ETree.null) = true ∧
    areEqual (ETree.node internalCh (ETree.node 'T' .null .null) (ETree.node 'R' .null .null))
      (ETree.node internalCh (ETree.node 'T' .null .null) (ETree.node 'S' .null .null)) = true := by
  refine ⟨by decide, by decide⟩

/-- A shape always combines at least one tree. -/
theorem front_ne_nil (sh : Sh) : front sh ≠ [] := by
  induction sh with
  | lf t => simp [front]
  | nd l r ihl ihr => simp [front, ihl]

/-- Exchanging a value with itself is the identity. -/
theorem swapFun_self (x t : ETree) : swapFun x x t = t := by
  by_cases h : t = x <;> simp [swapFun, h]

/-- `swapFun` sends `x` to `y`. -/
theorem swapFun_left (x y : ETree) : swapFun x y x = y := by
  simp [swapFun]

/-- `swapFun` sends `y` to `x`. -/
theorem swapFun_right (x y : ETree) : swapFun x y y = x := by
  by_cases h : y = x <;> simp [swapFun, h]

/-- `swapFun` fixes values other than `x` and `y`. -/
theorem swapFun_other (x y t : ETree) (hx : t ≠ x) (hy : t ≠ y) :
    swapFun x y t = t := by
  simp [swapFun, hx, hy]

/-- `swapFun` is an involution. -/
theorem swapFun_invol (x y t : ETree) : swapFun x y (swapFun x y t) = t := by
  by_cases h1 : t = x
  · subst h1
    rw [swapFun_left, swapFun_right]
  · by_cases h2 : t = y
    · subst h2
      rw [swapFun_right, swapFun_left]
    · rw [swapFun_other x y t h1 h2, swapFun_other x y t h1 h2]

/-- `swapFun` is injective. -/
theorem swapFun_inj (x y : ETree) : Function.Injective (swapFun x y) :=
  Function.Involutive.injective (swapFun_invol x y)

/-- The forest of a label-swapped shape. -/
theorem front_swapLb (x y : ETree) (sh : Sh) :
    front (swapLb x y sh) = (front sh).map (swapFun x y) := by
  induction sh with
  | lf t => rfl
  | nd l r ihl ihr => simp [swapLb, front, ihl, ihr]

/-- Label swapping does not change the skeleton, hence not the height. -/
theorem maxD_swapLb (x y : ETree) (sh : Sh) : maxD (swapLb x y sh) = maxD sh := by
  induction sh with
  | lf t => rfl
  | nd l r ihl ihr => simp [swapLb, maxD, ihl, ihr]

/-- Swapping a label with itself changes nothing. -/
theorem swapLb_self (x : ETree) (sh : Sh) : swapLb x x sh = sh := by
  induction sh with
  | lf t => simp [swapLb, swapFun_self]
  | nd l r ihl ihr => simp [swapLb, ihl, ihr]

/-- Swapping labels that do not occur changes nothing. -/
theorem swapLb_id (x y : ETree) (sh : Sh) (hx : x ∉ front sh) (hy : y ∉ front sh) :
    swapLb x y sh = sh := by
  induction sh with
  | lf t =>
    simp only [front, List.mem_singleton] at hx hy
    rw [swapLb, swapFun_other x y t (fun h => hx h.symm) (fun h => hy h.symm)]
  | nd l r ihl ihr =>
    simp only [front, List.mem_append, not_or] at hx hy
    simp [swapLb, ihl hx.1 hy.1, ihr hx.2 hy.2]

/-- Counting in a mapped list along the involution `swapFun`. -/
theorem count_map_swapFun (x y : ETree) (l : List ETree) (z : ETree) :
    (l.map (swapFun x y)).count z = l.count (swapFun x y z) := by
  have h1 : (l.map (swapFun x y)).count (swapFun x y (swapFun x y z)) =
      l.count (swapFun x y z) :=
    List.count_map_of_injective l (swapFun x y) (swapFun_inj x y) (swapFun x y z)
  rw [swapFun_invol] at h1
  exact h1

/-- Swapping two labels that both occur in a duplicate-free forest permutes
the forest. -/
theorem front_swapLb_perm (x y : ETree) (sh : Sh) (hx : x ∈ front sh)
    (hy : y ∈ front sh) (hnd : (front sh).Nodup) :
    (front (swapLb x y sh)).Perm (front sh) := by
  rw [front_swapLb, List.perm_iff_count]
  intro z
  rw [count_map_swapFun]
  by_cases h1 : z = x
  · subst h1
    rw [swapFun_left]
    rw [List.count_eq_one_of_mem hnd hx, List.count_eq_one_of_mem hnd hy]
  · by_cases h2 : z = y
    · subst h2
      rw [swapFun_right]
      rw [List.count_eq_one_of_mem hnd hx, List.count_eq_one_of_mem hnd hy]
    · rw [swapFun_other x y z h1 h2]

/-- The weight of a shape is the total weight of its forest. -/
theorem shWeight_eq (w : Char → Nat) (sh : Sh) :
    shWeight w sh = ((front sh).map (weightOf w)).sum := by
  induction sh with
  | lf t => simp [shWeight, front]
  | nd l r ihl ihr => simp [shWeight, front, ihl, ihr]

/-- Depths of occurring labels are bounded by the height. -/
theorem depthOf_le_maxD (sh : Sh) (x : ETree) (hx : x ∈ front sh) :
    depthOf sh x ≤ maxD sh := by
  induction sh with
  | lf t => simp [depthOf, maxD]
  | nd l r ihl ihr =>
    rw [depthOf, maxD]
    by_cases h1 : x ∈ front l
    · simp only [h1, if_true]
      have := ihl h1
      omega
    · simp only [h1, if_false]
      have h2 : x ∈ front r := by
        rw [front, List.mem_append] at hx
        tauto
      simp only [h2, if_true]
      have := ihr h2
      omega

/-- `swapFun` is symmetric in the two exchanged values. -/
theorem swapFun_comm (x y t : ETree) : swapFun x y t = swapFun y x t := by
  by_cases h1 : t = x
  · by_cases h2 : t = y
    · rw [h1] at h2
      rw [h1, h2]
    · rw [h1, swapFun_left, swapFun_right]
  · by_cases h2 : t = y
    · rw [h2, swapFun_right, swapFun_left]
    · rw [swapFun_other x y t h1 h2, swapFun_other y x t h2 h1]

/-- `swapLb` is symmetric in the two exchanged labels. -/
theorem swapLb_comm (x y : ETree) (sh : Sh) : swapLb x y sh = swapLb y x sh := by
  induction sh with
  | lf t => rw [swapLb, swapLb, swapFun_comm]
  | nd l r ihl ihr => rw [swapLb, swapLb, ihl, ihr]

/-- Replacing the label `x` (present exactly once) by a fresh label `y`:
exact accounting of the shape's cost and weight. -/
theorem shCost_repl (w : Char → Nat) (x y : ETree) (sh : Sh)
    (hx : x ∈ front sh) (hnd : (front sh).Nodup) (hy : y ∉ front sh) :
    shCost w (swapLb x y sh) + cost w x + depthOf sh x * weightOf w x =
      shCost w sh + cost w y + depthOf sh x * weightOf w y ∧
    shWeight w (swapLb x y sh) + weightOf w x = shWeight w sh + weightOf w y := by
  induction sh with
  | lf t =>
    simp only [front, List.mem_singleton] at hx hy
    subst hx
    rw [swapLb]
    rw [show swapFun x y x = y from swapFun_left x y]
    simp only [shCost, shWeight, depthOf]
    omega
  | nd l r ihl ihr =>
    have hndl : (front l).Nodup := ((List.nodup_append.mp (by rw [front] at hnd; exact hnd)).1)
    have hndr : (front r).Nodup := ((List.nodup_append.mp (by rw [front] at hnd; exact hnd)).2.1)
    have hdisj : ∀ z ∈ front l, z ∉ front r := by
      have := (List.nodup_append.mp (by rw [front] at hnd; exact hnd)).2.2
      intro z hz hz2
      exact this hz hz2
    have hyl : y ∉ front l := by
      intro h
      exact hy (by rw [front, List.mem_append]; exact Or.inl h)
    have hyr : y ∉ front r := by
      intro h
      exact hy (by rw [front, List.mem_append]; exact Or.inr h)
    by_cases hxl : x ∈ front l
    · have hxr : x ∉ front r := hdisj x hxl
      have hid : swapLb x y r = r := swapLb_id x y r hxr hyr
      obtain ⟨E, W⟩ := ihl hxl hndl hyl
      have hdep : depthOf (Sh.nd l r) x = depthOf l x + 1 := by
        rw [depthOf]
        simp [hxl]
      rw [hdep]
      rw [show swapLb x y (Sh.nd l r) = Sh.nd (swapLb x y l) r by rw [swapLb, hid]]
      simp only [shCost, shWeight]
      rw [Nat.succ_mul, Nat.succ_mul]
      omega
    · have hxr : x ∈ front r := by
        rw [front, List.mem_append] at hx
        tauto
      have hid : swapLb x y l = l := swapLb_id x y l hxl hyl
      obtain ⟨E, W⟩ := ihr hxr hndr hyr
      have hdep : depthOf (Sh.nd l r) x = depthOf r x + 1 := by
        rw [depthOf]
        simp [hxl, hxr]
      rw [hdep]
      rw [show swapLb x y (Sh.nd l r) = Sh.nd l (swapLb x y r) by rw [swapLb, hid]]
      simp only [shCost, shWeight]
      rw [Nat.succ_mul, Nat.succ_mul]
      omega

/-- Swapping two labels preserves the total weight of a shape. -/
theorem shWeight_swapLb (w : Char → Nat) (x y : ETree) (sh : Sh)
    (hx : x ∈ front sh) (hy : y ∈ front sh) (hnd : (front sh).Nodup) :
    shWeight w (swapLb x y sh) = shWeight w sh := by
  rw [shWeight_eq, shWeight_eq]
  exact List.Perm.sum_eq (List.Perm.map (weightOf w) (front_swapLb_perm x y sh hx hy hnd))

/-- Exact cost accounting for swapping two distinct labels, each present
exactly once. -/
theorem shCost_swapLb_eq (w : Char → Nat) (x y : ETree) (sh : Sh)
    (hx : x ∈ front sh) (hy : y ∈ front sh) (hxy : x ≠ y)
    (hnd : (front sh).Nodup) :
    shCost w (swapLb x y sh) + depthOf sh x * weightOf w x +
        depthOf sh y * weightOf w y =
      shCost w sh + depthOf sh x * weightOf w y + depthOf sh y * weightOf w x := by
  induction sh with
  | lf t =>
    simp only [front, List.mem_singleton] at hx hy
    rw [hx] at hxy
    rw [hy] at hxy
    exact absurd rfl hxy
  | nd l r ihl ihr =>
    have hndl : (front l).Nodup := ((List.nodup_append.mp (by rw [front] at hnd; exact hnd)).1)
    have hndr : (front r).Nodup := ((List.nodup_append.mp (by rw [front] at hnd; exact hnd)).2.1)
    have hdisj : ∀ z ∈ front l, z ∉ front r := by
      have := (List.nodup_append.mp (by rw [front] at hnd; exact hnd)).2.2
      intro z hz hz2
      exact this hz hz2
    by_cases hxl : x ∈ front l
    · by_cases hyl : y ∈ front l
      · have hxr : x ∉ front r := hdisj x hxl
        have hyr : y ∉ front r := hdisj y hyl
        have hid : swapLb x y r = r := swapLb_id x y r hxr hyr
        have hdx : depthOf (Sh.nd l r) x = depthOf l x + 1 := by
          rw [depthOf]; simp [hxl]
        have hdy : depthOf (Sh.nd l r) y = depthOf l y + 1 := by
          rw [depthOf]; simp [hyl]
        have hW : shWeight w (swapLb x y l) = shWeight w l :=
          shWeight_swapLb w x y l hxl hyl hndl
        have E := ihl hxl hyl hndl
        rw [hdx, hdy]
        rw [show swapLb x y (Sh.nd l r) = Sh.nd (swapLb x y l) r by rw [swapLb, hid]]
        simp only [shCost]
        rw [Nat.succ_mul, Nat.succ_mul, Nat.succ_mul, Nat.succ_mul, hW]
        omega
      · have hyr : y ∈ front r := by
          rw [front, List.mem_append] at hy
          tauto
        have hxr : x ∉ front r := hdisj x hxl
        have hdx : depthOf (Sh.nd l r) x = depthOf l x + 1 := by
          rw [depthOf]; simp [hxl]
        have hdy : depthOf (Sh.nd l r) y = depthOf r y + 1 := by
          rw [depthOf]; simp [hyl, hyr]
        obtain ⟨El, Wl⟩ := shCost_repl w x y l hxl hndl hyl
        have hswr : swapLb x y r = swapLb y x r := swapLb_comm x y r
        obtain ⟨Er, Wr⟩ := shCost_repl w y x r hyr hndr hxr
        rw [hdx, hdy]
        rw [show swapLb x y (Sh.nd l r) = Sh.nd (swapLb x y l) (swapLb y x r) by
          rw [swapLb, hswr]]
        simp only [shCost]
        rw [Nat.succ_mul, Nat.succ_mul, Nat.succ_mul, Nat.succ_mul]
        omega
    · have hxr : x ∈ front r := by
        rw [front, List.mem_append] at hx
        tauto
      by_cases hyl : y ∈ front l
      · have hyr : y ∉ front r := hdisj y hyl
        have hdx : depthOf (Sh.nd l r) x = depthOf r x + 1 := by
          rw [depthOf]; simp [hxl, hxr]
        have hdy : depthOf (Sh.nd l r) y = depthOf l y + 1 := by
          rw [depthOf]; simp [hyl]
        have hswl : swapLb x y l = swapLb y x l := swapLb_comm x y l
        obtain ⟨El, Wl⟩ := shCost_repl w y x l hyl hndl hxl
        obtain ⟨Er, Wr⟩ := shCost_repl w x y r hxr hndr hyr
        rw [hdx, hdy]
        rw [show swapLb x y (Sh.nd l r) = Sh.nd (swapLb y x l) (swapLb x y r) by
          rw [swapLb, hswl]]
        simp only [shCost]
        rw [Nat.succ_mul, Nat.succ_mul, Nat.succ_mul, Nat.succ_mul]
        omega
      · have hyr : y ∈ front r := by
          rw [front, List.mem_append] at hy
          tauto
        have hid : swapLb x y l = l := swapLb_id x y l hxl hyl
        have hdx : depthOf (Sh.nd l r) x = depthOf r x + 1 := by
          rw [depthOf]; simp [hxl, hxr]
        have hdy : depthOf (Sh.nd l r) y = depthOf r y + 1 := by
          rw [depthOf]; simp [hyl, hyr]
        have hW : shWeight w (swapLb x y r) = shWeight w r :=
          shWeight_swapLb w x y r hxr hyr hndr
        have E := ihr hxr hyr hndr
        rw [hdx, hdy]
        rw [show swapLb x y (Sh.nd l r) = Sh.nd l (swapLb x y r) by rw [swapLb, hid]]
        simp only [shCost]
        rw [Nat.succ_mul, Nat.succ_mul, Nat.succ_mul, Nat.succ_mul, hW]
        omega

/-- Swapping a lighter, shallower label with a heavier, deeper one never
increases the cost. -/
theorem shCost_swapLb_le (w : Char → Nat) (x y : ETree) (sh : Sh)
    (hx : x ∈ front sh) (hy : y ∈ front sh) (hnd : (front sh).Nodup)
    (hw : weightOf w x ≤ weightOf w y) (hd : depthOf sh x ≤ depthOf sh y) :
    shCost w (swapLb x y sh) ≤ shCost w sh := by
  by_cases hxy : x = y
  · rw [hxy, swapLb_self]
  · have E := shCost_swapLb_eq w x y sh hx hy hxy hnd
    obtain ⟨k, hk⟩ := Nat.exists_eq_add_of_le hd
    rw [hk] at E
    rw [Nat.add_mul, Nat.add_mul] at E
    have hmul : k * weightOf w x ≤ k * weightOf w y := Nat.mul_le_mul_left k hw
    omega

/-- Merging a sibling pair of labels preserves the shape's cost and
weight (the combined tree is literally unchanged). -/
theorem mergePair_cost (w : Char → Nat) (sh : Sh) (d : Nat) (a b : ETree) (sh' : Sh)
    (h : MergePairD sh d a b sh') (hnn : isNull a = false) :
    shCost w sh' = shCost w sh ∧ shWeight w sh' = shWeight w sh := by
  induction h with
  | here a b =>
    constructor
    · simp only [shCost, shWeight, cost, weightOf, hnn, Bool.false_and,
        Bool.false_eq_true, if_false]
    · simp only [shWeight, weightOf, hnn, Bool.false_and, Bool.false_eq_true, if_false]
  | left l r l' d a b hsub ih =>
    obtain ⟨hc, hw⟩ := ih hnn
    constructor
    · simp only [shCost, hc, hw]
    · simp only [shWeight, hw]
  | right l r r' d a b hsub ih =>
    obtain ⟨hc, hw⟩ := ih hnn
    constructor
    · simp only [shCost, hc, hw]
    · simp only [shWeight, hw]

/-- The forest of a shape with a sibling pair, before and after merging. -/
theorem mergePair_front (sh : Sh) (d : Nat) (a b : ETree) (sh' : Sh)
    (h : MergePairD sh d a b sh') :
    ∃ pre post, front sh = pre ++ a :: b :: post ∧
      front sh' = pre ++ ETree.node internalCh a b :: post := by
  induction h with
  | here a b => exact ⟨[], [], rfl, rfl⟩
  | left l r l' d a b hsub ih =>
    obtain ⟨pre, post, h1, h2⟩ := ih
    refine ⟨pre, post ++ front r, ?_, ?_⟩
    · rw [front, h1]
      simp
    · rw [front, h2]
      simp
  | right l r r' d a b hsub ih =>
    obtain ⟨pre, post, h1, h2⟩ := ih
    refine ⟨front l ++ pre, post, ?_, ?_⟩
    · rw [front, h1]
      simp
    · rw [front, h2]
      simp

/-- In a duplicate-free forest, the two merged labels sit at depth `d`. -/
theorem mergePair_depth (sh : Sh) (d : Nat) (a b : ETree) (sh' : Sh)
    (h : MergePairD sh d a b sh') (hnd : (front sh).Nodup) :
    depthOf sh a = d ∧ depthOf sh b = d := by
  induction h with
  | here a b =>
    have hab : ¬a = b := by
      simp [front] at hnd
      exact hnd
    have hba : ¬b = a := fun h => hab h.symm
    constructor
    · rw [depthOf]
      simp [front, depthOf]
    · rw [depthOf]
      simp [front, depthOf, hba]
  | left l r l' d a b hsub ih =>
    have hndl : (front l).Nodup :=
      (List.nodup_append.mp (by rw [front] at hnd; exact hnd)).1
    obtain ⟨ha, hb⟩ := ih hndl
    obtain ⟨pre, post, h1, _⟩ := mergePair_front l d a b l' hsub
    have hal : a ∈ front l := by rw [h1]; simp
    have hbl : b ∈ front l := by rw [h1]; simp
    constructor
    · rw [depthOf]; simp [hal, ha]
    · rw [depthOf]; simp [hbl, hb]
  | right l r r' d a b hsub ih =>
    have hndr : (front r).Nodup :=
      (List.nodup_append.mp (by rw [front] at hnd; exact hnd)).2.1
    have hdisj := (List.nodup_append.mp (by rw [front] at hnd; exact hnd)).2.2
    obtain ⟨ha, hb⟩ := ih hndr
    obtain ⟨pre, post, h1, _⟩ := mergePair_front r d a b r' hsub
    have har : a ∈ front r := by rw [h1]; simp
    have hbr : b ∈ front r := by rw [h1]; simp
    have hal : a ∉ front l := fun hmem => hdisj hmem har
    have hbl : b ∉ front l := fun hmem => hdisj hmem hbr
    constructor
    · rw [depthOf]; simp [hal, har, ha]
    · rw [depthOf]; simp [hbl, hbr, hb]

/-- A shape of height 0 is a single label. -/
theorem maxD_zero (sh : Sh) (h : maxD sh = 0) : ∃ t, sh = Sh.lf t := by
  cases sh with
  | lf t => exact ⟨t, rfl⟩
  | nd l r => simp [maxD] at h

/-- Every two-or-more-label shape has a sibling pair of labels at its
maximal depth (the deepest node's sibling must itself be a label). -/
theorem mergePair_exists_aux (n : Nat) : ∀ l r : Sh, maxD (Sh.nd l r) ≤ n →
    ∃ a b sh', MergePairD (Sh.nd l r) (maxD (Sh.nd l r)) a b sh' := by
  induction n with
  | zero => intro l r h; simp [maxD] at h
  | succ n ih =>
    intro l r h
    by_cases hlr : maxD r ≤ maxD l
    · have hmax : maxD (Sh.nd l r) = maxD l + 1 := by
        rw [maxD]
        omega
      cases l with
      | lf a =>
        have hr0 : maxD r = 0 := by
          simp [maxD] at hlr
          omega
        obtain ⟨b, rfl⟩ := maxD_zero r hr0
        exact ⟨a, b, _, by
          rw [show maxD (Sh.nd (Sh.lf a) (Sh.lf b)) = 1 by simp [maxD]]
          exact MergePairD.here a b⟩
      | nd ll lr =>
        have hle : maxD (Sh.nd ll lr) ≤ n := by
          rw [maxD] at h
          omega
        obtain ⟨a, b, sh', hsub⟩ := ih ll lr hle
        refine ⟨a, b, Sh.nd sh' r, ?_⟩
        rw [hmax]
        exact MergePairD.left _ _ _ _ _ _ hsub
    · have hmax : maxD (Sh.nd l r) = maxD r + 1 := by
        rw [maxD]
        omega
      cases r with
      | lf b => simp [maxD] at hlr
      | nd rl rr =>
        have hle : maxD (Sh.nd rl rr) ≤ n := by
          rw [maxD] at h
          omega
        obtain ⟨a, b, sh', hsub⟩ := ih rl rr hle
        refine ⟨a, b, Sh.nd l sh', ?_⟩
        rw [hmax]
        exact MergePairD.right _ _ _ _ _ _ hsub

/-- Deepest-sibling-pair existence, packaged. -/
theorem mergePair_exists (l r : Sh) :
    ∃ a b sh', MergePairD (Sh.nd l r) (maxD (Sh.nd l r)) a b sh' :=
  mergePair_exists_aux (maxD (Sh.nd l r)) l r (le_refl _)

/-- A sibling pair survives a label swap (holding the swapped values). -/
theorem mergePair_swap (x y : ETree) (sh : Sh) (d : Nat) (a b : ETree) (sh' : Sh)
    (h : MergePairD sh d a b sh') :
    ∃ sh2, MergePairD (swapLb x y sh) d (swapFun x y a) (swapFun x y b) sh2 := by
  induction h with
  | here a b =>
    exact ⟨_, MergePairD.here (swapFun x y a) (swapFun x y b)⟩
  | left l r l' d a b hsub ih =>
    obtain ⟨sh2, hsh2⟩ := ih
    exact ⟨Sh.nd sh2 (swapLb x y r), MergePairD.left _ _ _ _ _ _ hsh2⟩
  | right l r r' d a b hsub ih =>
    obtain ⟨sh2, hsh2⟩ := ih
    exact ⟨Sh.nd (swapLb x y l) sh2, MergePairD.right _ _ _ _ _ _ hsh2⟩

/-- Greedy exchange lemma: if `u` and `v` are the two lightest trees of a
duplicate-free forest, then any combination of the forest can be
rearranged — at no extra cost — into a combination in which `u` and `v`
have been merged into the single tree `node u v`. -/
theorem exchange (w : Char → Nat) (sh : Sh) (u v : ETree) (F : List ETree)
    (hperm : (front sh).Perm (u :: v :: F))
    (hnd : (front sh).Nodup)
    (hnn : isNull u = false)
    (huv : weightOf w u ≤ weightOf w v)
    (hF : ∀ y ∈ F, weightOf w v ≤ weightOf w y) :
    ∃ sh', (front sh').Perm (ETree.node internalCh u v :: F) ∧
      shCost w sh' ≤ shCost w sh := by
  have hndL : (u :: v :: F).Nodup := (hperm.nodup_iff).mp hnd
  have hune : u ≠ v := by
    have := (List.nodup_cons.mp hndL).1
    intro h
    exact this (by rw [h]; simp)
  have humem : u ∈ front sh := (hperm.mem_iff).mpr (by simp)
  have hvmem : v ∈ front sh := (hperm.mem_iff).mpr (by simp)
  have hminU : ∀ y ∈ front sh, weightOf w u ≤ weightOf w y := by
    intro y hy
    rcases List.mem_cons.mp ((hperm.mem_iff).mp hy) with h | h
    · rw [h]
    · rcases List.mem_cons.mp h with h2 | h2
      · rw [h2]; exact huv
      · exact le_trans huv (hF y h2)
  have hminV : ∀ y ∈ front sh, y ≠ u → weightOf w v ≤ weightOf w y := by
    intro y hy hyu
    rcases List.mem_cons.mp ((hperm.mem_iff).mp hy) with h | h
    · exact absurd h hyu
    · rcases List.mem_cons.mp h with h2 | h2
      · rw [h2]
      · exact hF y h2
  cases sh with
  | lf t =>
    have := hperm.length_eq
    simp [front] at this
  | nd l r =>
    obtain ⟨a, b, shM, hmp⟩ := mergePair_exists l r
    obtain ⟨pre, post, hfr, _⟩ := mergePair_front _ _ _ _ _ hmp
    have hamem : a ∈ front (Sh.nd l r) := by rw [hfr]; simp
    have hbmem : b ∈ front (Sh.nd l r) := by rw [hfr]; simp
    have hab : a ≠ b := by
      have h2 := hnd
      rw [hfr] at h2
      have h3 := (List.nodup_append.mp h2).2.1
      have := (List.nodup_cons.mp h3).1
      intro h
      exact this (by rw [h]; simp)
    obtain ⟨hda, hdb⟩ := mergePair_depth _ _ _ _ _ hmp hnd
    -- step 1: swap u into a's slot
    have hc1 : shCost w (swapLb u a (Sh.nd l r)) ≤ shCost w (Sh.nd l r) := by
      apply shCost_swapLb_le w u a _ humem hamem hnd (hminU a hamem)
      rw [hda]
      exact depthOf_le_maxD _ u humem
    have hf1 : (front (swapLb u a (Sh.nd l r))).Perm (front (Sh.nd l r)) :=
      front_swapLb_perm u a _ humem hamem hnd
    have hnd1 : (front (swapLb u a (Sh.nd l r))).Nodup := (hf1.nodup_iff).mpr hnd
    obtain ⟨shM1, hmp1⟩ := mergePair_swap u a _ _ _ _ _ hmp
    rw [swapFun_right] at hmp1
    obtain ⟨hd1u, hd1b⟩ := mergePair_depth _ _ _ _ _ hmp1 hnd1
    have hb1 : swapFun u a b ≠ u := by
      by_cases hbu : b = u
      · rw [hbu, swapFun_left]
        intro h
        rw [hbu] at hab
        exact hab h
      · by_cases hba : b = a
        · exact absurd hba.symm hab
        · rw [swapFun_other u a b hbu hba]
          exact hbu
    obtain ⟨pre1, post1, hfr1, _⟩ := mergePair_front _ _ _ _ _ hmp1
    have hb1mem : swapFun u a b ∈ front (swapLb u a (Sh.nd l r)) := by
      rw [hfr1]; simp
    have hb1memsh : swapFun u a b ∈ front (Sh.nd l r) := (hf1.mem_iff).mp hb1mem
    have hwv : weightOf w v ≤ weightOf w (swapFun u a b) :=
      hminV _ hb1memsh hb1
    have hvmem1 : v ∈ front (swapLb u a (Sh.nd l r)) := (hf1.mem_iff).mpr hvmem
    -- step 2: swap v into b's slot
    have hmax1 : maxD (swapLb u a (Sh.nd l r)) = maxD (Sh.nd l r) := maxD_swapLb _ _ _
    have hc2 : shCost w (swapLb v (swapFun u a b) (swapLb u a (Sh.nd l r))) ≤
        shCost w (swapLb u a (Sh.nd l r)) := by
      apply shCost_swapLb_le w v _ _ hvmem1 hb1mem hnd1 hwv
      rw [hd1b]
      rw [← hmax1]
      exact depthOf_le_maxD _ v hvmem1
    have hf2 : (front (swapLb v (swapFun u a b) (swapLb u a (Sh.nd l r)))).Perm
        (front (swapLb u a (Sh.nd l r))) :=
      front_swapLb_perm v _ _ hvmem1 hb1mem hnd1
    have hnd2 := (hf2.nodup_iff).mpr hnd1
    obtain ⟨shM2, hmp2⟩ := mergePair_swap v (swapFun u a b) _ _ _ _ _ hmp1
    have h2a : swapFun v (swapFun u a b) u = u := by
      apply swapFun_other
      · exact hune
      · exact fun h => hb1 h.symm
    rw [h2a, swapFun_right] at hmp2
    -- read off the result
    obtain ⟨hcostM, _⟩ := mergePair_cost w _ _ _ _ _ hmp2 hnn
    obtain ⟨pre2, post2, hf2a, hf2b⟩ := mergePair_front _ _ _ _ _ hmp2
    have hchain : (front (swapLb v (swapFun u a b) (swapLb u a (Sh.nd l r)))).Perm
        (u :: v :: F) := (hf2.trans hf1).trans hperm
    rw [hf2a] at hchain
    have hmid : (pre2 ++ u :: v :: post2).Perm (u :: v :: (pre2 ++ post2)) := by
      refine (List.perm_middle).trans ?_
      exact List.Perm.cons u (List.perm_middle)
    have hrest : (pre2 ++ post2).Perm F := by
      have := (hmid.symm.trans hchain)
      exact (this.cons_inv).cons_inv
    refine ⟨shM2, ?_, ?_⟩
    · rw [hf2b]
      refine (List.perm_middle).trans ?_
      exact List.Perm.cons _ hrest
    · rw [hcostM]
      exact le_trans hc2 hc1

/-- `pqEnqueue` is, up to order, just `cons`. -/
theorem pqEnqueue_perm (x : ETree) (p : Nat) (q : List (Nat × ETree)) :
    (pqEnqueue x p q).Perm ((p, x) :: q) := by
  induction q with
  | nil => simp [pqEnqueue]
  | cons e rest ih =>
    obtain ⟨w0, y⟩ := e
    by_cases h : p < w0
    · simp [pqEnqueue, h]
    · rw [pqEnqueue, if_neg h]
      exact ((ih.cons (w0, y)).trans (List.Perm.swap _ _ _))

/-- `pqEnqueue` keeps the queue sorted by priority. -/
theorem pqEnqueue_sorted (x : ETree) (p : Nat) (q : List (Nat × ETree))
    (hs : q.Pairwise (fun e1 e2 => e1.1 ≤ e2.1)) :
    (pqEnqueue x p q).Pairwise (fun e1 e2 => e1.1 ≤ e2.1) := by
  induction q with
  | nil => simp [pqEnqueue]
  | cons e rest ih =>
    obtain ⟨w0, y⟩ := e
    obtain ⟨hhead, hrest⟩ := List.pairwise_cons.mp hs
    by_cases h : p < w0
    · rw [pqEnqueue, if_pos h]
      refine List.pairwise_cons.mpr ⟨?_, hs⟩
      intro e he
      rcases List.mem_cons.mp he with h2 | h2
      · rw [h2]
        exact le_of_lt h
      · exact le_trans (le_of_lt h) (hhead e h2)
    · rw [pqEnqueue, if_neg h]
      refine List.pairwise_cons.mpr ⟨?_, ih hrest⟩
      intro e he
      rcases (pqEnqueue_mem _ _ _ _).mp he with h2 | h2
      · rw [h2]
        simp only []
        omega
      · exact hhead e h2

/-- `textFrequency` computes the total weight under the map's counts. -/
theorem textFrequency_eq (t : ETree) (lm : List (Char × Nat)) :
    textFrequency t lm = weightOf (fun c => mapGetNat lm c) t := by
  induction t with
  | null => rfl
  | node c z o ihz iho =>
    rw [textFrequency, weightOf, isLeaf_iff_isNull]
    by_cases h : (isNull z && isNull o) = true
    · simp [h]
    · simp only [h, Bool.false_eq_true, if_false]
      omega

/-- A forest of well-formed trees with globally duplicate-free leaf
characters has no duplicate trees. -/
theorem values_nodup (q : List (Nat × ETree))
    (hwf : ∀ e ∈ q, wellFormed e.2 = true)
    (hchars : ((q.map (fun e => leafChars e.2)).flatten).Nodup) :
    (q.map Prod.snd).Nodup := by
  induction q with
  | nil => simp
  | cons e rest ih =>
    simp only [List.map_cons, List.flatten_cons] at hchars
    obtain ⟨hnd1, hnd2, hdisj⟩ := List.nodup_append.mp hchars
    refine List.nodup_cons.mpr ⟨?_, ih (fun f hf => hwf f (by simp [hf])) hnd2⟩
    intro hmem
    obtain ⟨f, hf, hfe⟩ := List.mem_map.mp hmem
    have hne : 1 ≤ (leafChars e.2).length := leafChars_length_pos _ (hwf e (by simp))
    obtain ⟨c, hc⟩ : ∃ c, c ∈ leafChars e.2 := by
      cases hl : leafChars e.2 with
      | nil => rw [hl] at hne; simp at hne
      | cons c cs => exact ⟨c, by simp⟩
    have hc2 : c ∈ (rest.map (fun e => leafChars e.2)).flatten := by
      rw [List.mem_flatten]
      refine ⟨leafChars f.2, ?_, ?_⟩
      · exact List.mem_map.mpr ⟨f, hf, rfl⟩
      · rw [hfe]
        exact hc
    exact hdisj hc hc2

/-- A forest whose front is a single tree is a single label. -/
theorem front_singleton (sh : Sh) (x : ETree) (h : front sh = [x]) :
    sh = Sh.lf x := by
  cases sh with
  | lf t =>
    rw [front] at h
    simp at h
    rw [h]
  | nd l r =>
    exfalso
    have h1 : 0 < (front l).length := List.length_pos.mpr (front_ne_nil l)
    have h2 : 0 < (front r).length := List.length_pos.mpr (front_ne_nil r)
    have h3 : (front (Sh.nd l r)).length = (front l).length + (front r).length := by
      rw [front]
      simp
    rw [h] at h3
    simp at h3
    omega

/-- Optimality of the merging loop: the tree it produces costs no more
than any combination of the queue's forest — provided the queue is sorted
by priority, priorities are tree weights, trees are well-formed, and the
leaf characters across the queue are duplicate-free. -/
theorem huffmanLoopF_opt (lm : List (Char × Nat)) :
    ∀ (fuel : Nat) (q : List (Nat × ETree)),
      q.length ≤ fuel + 1 →
      1 ≤ q.length →
      q.Pairwise (fun e1 e2 => e1.1 ≤ e2.1) →
      (∀ e ∈ q, e.1 = weightOf (fun c => mapGetNat lm c) e.2) →
      (∀ e ∈ q, wellFormed e.2 = true) →
      ((q.map (fun e => leafChars e.2)).flatten).Nodup →
      ∀ p T, huffmanLoopF lm fuel q = [(p, T)] →
      ∀ sh : Sh, (front sh).Perm (q.map Prod.snd) →
      cost (fun c => mapGetNat lm c) T ≤ shCost (fun c => mapGetNat lm c) sh := by
  intro fuel
  induction fuel with
  | zero =>
    intro q hlen h1 _ _ _ _ p T hres sh hsh
    match q with
    | [] => simp at h1
    | [e] =>
      rw [huffmanLoopF_singleton] at hres
      have he : e = (p, T) := by simpa using hres
      rw [he] at hsh
      simp only [List.map_cons, List.map_nil] at hsh
      rw [front_singleton sh T (List.perm_singleton.mp hsh)]
      rw [shCost]
    | e1 :: e2 :: rest => simp at hlen
  | succ fuel ih =>
    intro q hlen h1 hsort hpri hwf hchars p T hres sh hsh
    match q with
    | [] => simp at h1
    | [e] =>
      rw [huffmanLoopF_singleton] at hres
      have he : e = (p, T) := by simpa using hres
      rw [he] at hsh
      simp only [List.map_cons, List.map_nil] at hsh
      rw [front_singleton sh T (List.perm_singleton.mp hsh)]
      rw [shCost]
    | (p1, t1) :: (p2, t2) :: rest =>
      rw [huffmanLoopF] at hres
      have hwf1 : wellFormed t1 = true := hwf (p1, t1) (by simp)
      have hwf2 : wellFormed t2 = true := hwf (p2, t2) (by simp)
      have hnn1 : isNull t1 = false := by
        cases t1 with
        | null => simp [wellFormed] at hwf1
        | node _ _ _ => rfl
      have hnn2 : isNull t2 = false := by
        cases t2 with
        | null => simp [wellFormed] at hwf2
        | node _ _ _ => rfl
      have hparwf : wellFormed (ETree.node internalCh t1 t2) = true :=
        wellFormed_node _ _ _ hwf1 hwf2
      have hparw : weightOf (fun c => mapGetNat lm c) (ETree.node internalCh t1 t2) =
          weightOf (fun c => mapGetNat lm c) t1 +
            weightOf (fun c => mapGetNat lm c) t2 := by
        rw [weightOf]
        simp [hnn1]
      have hparchars : leafChars (ETree.node internalCh t1 t2) =
          leafChars t1 ++ leafChars t2 := leafChars_node _ _ _ hnn1
      -- queue after the merge step
      have hq' := pqEnqueue_perm (ETree.node internalCh t1 t2)
        (textFrequency (ETree.node internalCh t1 t2) lm) rest
      have hsort' : (pqEnqueue (ETree.node internalCh t1 t2)
          (textFrequency (ETree.node internalCh t1 t2) lm) rest).Pairwise
            (fun e1 e2 => e1.1 ≤ e2.1) :=
        pqEnqueue_sorted _ _ _ ((List.pairwise_cons.mp
          ((List.pairwise_cons.mp hsort).2)).2)
      have hpri' : ∀ e ∈ pqEnqueue (ETree.node internalCh t1 t2)
          (textFrequency (ETree.node internalCh t1 t2) lm) rest,
          e.1 = weightOf (fun c => mapGetNat lm c) e.2 := by
        intro e he
        rcases (pqEnqueue_mem _ _ _ _).mp he with h | h
        · rw [h]
          exact textFrequency_eq _ lm
        · exact hpri e (by simp [h])
      have hwf' : ∀ e ∈ pqEnqueue (ETree.node internalCh t1 t2)
          (textFrequency (ETree.node internalCh t1 t2) lm) rest,
          wellFormed e.2 = true := by
        intro e he
        rcases (pqEnqueue_mem _ _ _ _).mp he with h | h
        · rw [h]
          exact hparwf
        · exact hwf e (by simp [h])
      have hcperm : (((pqEnqueue (ETree.node internalCh t1 t2)
          (textFrequency (ETree.node internalCh t1 t2) lm) rest).map
            (fun e => leafChars e.2)).flatten).Perm
          ((((p1, t1) :: (p2, t2) :: rest).map (fun e => leafChars e.2)).flatten) := by
        refine (List.Perm.flatten (List.Perm.map _ hq')).trans ?_
        simp only [List.map_cons, List.flatten_cons, hparchars]
        rw [List.append_assoc]
      have hchars' := (hcperm.nodup_iff).mpr hchars
      have hlen' : (pqEnqueue (ETree.node internalCh t1 t2)
          (textFrequency (ETree.node internalCh t1 t2) lm) rest).length ≤ fuel + 1 := by
        rw [pqEnqueue_length]
        simp only [List.length_cons] at hlen
        omega
      have h1' : 1 ≤ (pqEnqueue (ETree.node internalCh t1 t2)
          (textFrequency (ETree.node internalCh t1 t2) lm) rest).length := by
        rw [pqEnqueue_length]
        omega
      -- exchange: merge the two lightest trees inside the competitor shape
      have hvals : (((p1, t1) :: (p2, t2) :: rest).map Prod.snd).Nodup :=
        values_nodup _ hwf hchars
      have hnd : (front sh).Nodup := (hsh.nodup_iff).mpr hvals
      have hp12 : p1 ≤ p2 := (List.pairwise_cons.mp hsort).1 (p2, t2) (by simp)
      have hw12 : weightOf (fun c => mapGetNat lm c) t1 ≤
          weightOf (fun c => mapGetNat lm c) t2 := by
        have e1 := hpri (p1, t1) (by simp)
        have e2 := hpri (p2, t2) (by simp)
        simp only [] at e1 e2
        omega
      have hrestw : ∀ y ∈ rest.map Prod.snd,
          weightOf (fun c => mapGetNat lm c) t2 ≤ weightOf (fun c => mapGetNat lm c) y := by
        intro y hy
        obtain ⟨e, he, hey⟩ := List.mem_map.mp hy
        have h2 := (List.pairwise_cons.mp ((List.pairwise_cons.mp hsort).2)).1 e he
        have e2 := hpri (p2, t2) (by simp)
        have ee := hpri e (by simp [he])
        simp only [] at e2 ee h2
        rw [← hey, ← ee]
        omega
      have hshperm : (front sh).Perm (t1 :: t2 :: rest.map Prod.snd) := by
        simpa using hsh
      obtain ⟨sh', hsh', hcost'⟩ := exchange (fun c => mapGetNat lm c) sh t1 t2
        (rest.map Prod.snd) hshperm hnd hnn1 hw12 hrestw
      have hsh'q : (front sh').Perm ((pqEnqueue (ETree.node internalCh t1 t2)
          (textFrequency (ETree.node internalCh t1 t2) lm) rest).map Prod.snd) := by
        refine hsh'.trans ?_
        refine List.Perm.symm ?_
        refine (List.Perm.map Prod.snd hq').trans ?_
        simp
      have := ih (pqEnqueue (ETree.node internalCh t1 t2)
          (textFrequency (ETree.node internalCh t1 t2) lm) rest)
        hlen' h1' hsort' hpri' hwf' hchars' p T hres sh' hsh'q
      exact le_trans this hcost'

/-- `bumpFreq` keeps the frequency map strictly sorted by key. -/
theorem bumpFreq_pairwise (c : Char) (m : List (Char × Nat))
    (h : m.Pairwise (fun a b => a.1 < b.1)) :
    (bumpFreq c m).Pairwise (fun a b => a.1 < b.1) := by
  induction m with
  | nil => simp [bumpFreq]
  | cons f rest ih =>
    obtain ⟨k, v⟩ := f
    obtain ⟨hk, hrest⟩ := List.pairwise_cons.mp h
    by_cases h1 : c = k
    · subst h1
      have hbump : bumpFreq c ((c, v) :: rest) = (c, v + 1) :: rest := by
        simp [bumpFreq]
      rw [hbump]
      exact List.pairwise_cons.mpr ⟨hk, hrest⟩
    · by_cases h2 : c < k
      · have hbump : bumpFreq c ((k, v) :: rest) = (c, 1) :: (k, v) :: rest := by
          simp [bumpFreq, h1, h2]
        rw [hbump]
        refine List.pairwise_cons.mpr ⟨?_, h⟩
        intro e he
        rcases List.mem_cons.mp he with h3 | h3
        · rw [h3]
          exact h2
        · exact lt_trans h2 (hk e h3)
      · have hkc : k < c :=
          lt_of_le_of_ne (le_of_not_lt h2) (fun hh => h1 hh.symm)
        have hbump : bumpFreq c ((k, v) :: rest) = (k, v) :: bumpFreq c rest := by
          simp [bumpFreq, h1, h2]
        rw [hbump]
        refine List.pairwise_cons.mpr ⟨?_, ih hrest⟩
        intro e he
        rcases (bumpFreq_mem_key c e.1 rest).mp ⟨e, he, rfl⟩ with h3 | ⟨e2, he2, hke⟩
        · rw [h3]
          exact hkc
        · rw [← hke]
          exact hk e2 he2

/-- The frequency map is strictly sorted by key. -/
theorem letterMapOf_pairwise (t : List Char) :
    (letterMapOf t).Pairwise (fun a b => a.1 < b.1) := by
  have hgen : ∀ (l : List Char) (m0 : List (Char × Nat)),
      m0.Pairwise (fun a b => a.1 < b.1) →
      (l.foldl (fun m c => bumpFreq c m) m0).Pairwise (fun a b => a.1 < b.1) := by
    intro l
    induction l with
    | nil => intro m0 h; simpa using h
    | cons c rest ih =>
      intro m0 h
      exact ih (bumpFreq c m0) (bumpFreq_pairwise c m0 h)
  simpa [letterMapOf] using hgen t [] (by simp)

/-- Looking up a key present in a strictly sorted map returns its value. -/
theorem mapGetNat_key (m : List (Char × Nat))
    (hp : m.Pairwise (fun a b => a.1 < b.1)) (k : Char) (v : Nat)
    (hm : (k, v) ∈ m) : mapGetNat m k = v := by
  induction m with
  | nil => simp at hm
  | cons f rest ih =>
    obtain ⟨k1, v1⟩ := f
    obtain ⟨hk, hrest⟩ := List.pairwise_cons.mp hp
    rcases List.mem_cons.mp hm with h | h
    · obtain ⟨h1, h2⟩ := Prod.mk.injEq .. ▸ h
      rw [mapGetNat, if_pos h1]
      exact h2.symm
    · by_cases h1 : k = k1
      · exfalso
        have := hk (k, v) h
        simp only [] at this
        rw [h1] at this
        exact lt_irrefl k1 this
      · rw [mapGetNat, if_neg h1]
        exact ih hrest h

/-- The seeded queue is, up to order, one leaf entry per map entry. -/
theorem foldl_pqEnqueue_perm (lm : List (Char × Nat)) :
    ∀ q0 : List (Nat × ETree),
      (lm.foldl (fun q kv => pqEnqueue (ETree.node kv.1 .null .null) kv.2 q) q0).Perm
        (q0 ++ lm.map (fun kv => (kv.2, ETree.node kv.1 .null .null))) := by
  induction lm with
  | nil => simp
  | cons kv rest ih =>
    intro q0
    simp only [List.foldl_cons, List.map_cons]
    refine (ih _).trans ?_
    refine (List.Perm.append_right _ (pqEnqueue_perm _ _ _)).trans ?_
    exact (List.perm_middle).symm

/-- `seedQueue` is a permutation of the map's leaf entries. -/
theorem seedQueue_perm (lm : List (Char × Nat)) :
    (seedQueue lm).Perm (lm.map (fun kv => (kv.2, ETree.node kv.1 .null .null))) := by
  have := foldl_pqEnqueue_perm lm []
  simpa [seedQueue] using this

/-- The seeded queue is sorted by priority. -/
theorem seedQueue_sorted (lm : List (Char × Nat)) :
    (seedQueue lm).Pairwise (fun e1 e2 => e1.1 ≤ e2.1) := by
  have hgen : ∀ (l : List (Char × Nat)) (q0 : List (Nat × ETree)),
      q0.Pairwise (fun e1 e2 => e1.1 ≤ e2.1) →
      (l.foldl (fun q kv => pqEnqueue (ETree.node kv.1 .null .null) kv.2 q) q0).Pairwise
        (fun e1 e2 => e1.1 ≤ e2.1) := by
    intro l
    induction l with
    | nil => intro q0 h; simpa using h
    | cons kv rest ih =>
      intro q0 h
      exact ih _ (pqEnqueue_sorted _ _ _ h)
  simpa [seedQueue] using hgen lm [] (by simp)

/-- Flattening a list of singletons is mapping. -/
theorem flatten_singletons {α β : Type} (l : List α) (f : α → β) :
    (l.map (fun x => [f x])).flatten = l.map f := by
  induction l with
  | nil => rfl
  | cons x rest ih => simp [ih]

/-- The leaf characters across the seeded queue are exactly the map's
keys, in some order. -/
theorem seedQueue_chars_perm (lm : List (Char × Nat)) :
    (((seedQueue lm).map (fun e => leafChars e.2)).flatten).Perm
      (lm.map Prod.fst) := by
  refine (List.Perm.flatten (List.Perm.map _ (seedQueue_perm lm))).trans ?_
  rw [List.map_map]
  have : ((fun e : Nat × ETree => leafChars e.2) ∘
      (fun kv : Char × Nat => (kv.2, ETree.node kv.1 .null .null))) =
      fun kv : Char × Nat => [kv.1] := by
    funext kv
    simp [Function.comp, leafChars, isNull]
  rw [this, flatten_singletons]

/-- Optimality of `buildHuffmanTree`: given a text with two distinct
characters, the built tree's weighted path length is minimal among all
ways of combining the alphabet's leaves into a binary tree. -/
theorem buildHuffmanTree_opt (text : String) (a b : Char)
    (ha : a ∈ text.data) (hb : b ∈ text.data) (hab : a ≠ b) (T : ETree)
    (hT : buildHuffmanTree text = some T) :
    ∀ sh : Sh, (front sh).Perm ((letterMapOf text.data).map
        (fun kv => ETree.node kv.1 ETree.null ETree.null)) →
      cost (fun c => mapGetNat (letterMapOf text.data) c) T ≤
        shCost (fun c => mapGetNat (letterMapOf text.data) c) sh := by
  intro sh hsh
  have hpair := letterMapOf_pairwise text.data
  have hkeynd : ((letterMapOf text.data).map Prod.fst).Nodup := by
    have h2 : ((letterMapOf text.data).map Prod.fst).Pairwise (fun a b => a ≠ b) := by
      refine List.Pairwise.map Prod.fst ?_ hpair
      intro e1 e2 h heq
      rw [heq] at h
      exact lt_irrefl _ h
    exact h2
  -- the final queue
  have hinv : ∀ e ∈ seedQueue (letterMapOf text.data),
      wellFormed e.2 = true ∧ canonical e.2 = e.2 := by
    intro e he
    obtain ⟨kv, _, hkv⟩ := (seedQueue_mem _ _).mp he
    rw [hkv]
    exact ⟨rfl, rfl⟩
  have hA : ∃ e ∈ letterMapOf text.data, e.1 = a := (letterMapOf_mem_key _ _).mpr ha
  have hB : ∃ e ∈ letterMapOf text.data, e.1 = b := (letterMapOf_mem_key _ _).mpr hb
  obtain ⟨ea, hea, hka⟩ := hA
  obtain ⟨eb, heb, hkb⟩ := hB
  have hne : ea ≠ eb := by
    intro h
    rw [h, hkb] at hka
    exact hab hka.symm
  have hlen2 : 2 ≤ (letterMapOf text.data).length := two_mem_length _ ea eb hea heb hne
  have hq2 : 2 ≤ (seedQueue (letterMapOf text.data)).length := by
    rw [seedQueue_length]
    exact hlen2
  obtain ⟨p, T0, hres, _, _, _, _⟩ :=
    huffmanLoopF_spec (letterMapOf text.data)
      (seedQueue (letterMapOf text.data)).length
      (seedQueue (letterMapOf text.data)) (by omega) hq2 hinv
  have hres2 : huffmanLoop (letterMapOf text.data)
      (seedQueue (letterMapOf text.data)) = [(p, T0)] := hres
  have hT0 : T = T0 := by
    rw [buildHuffmanTree] at hT
    simp only [hres2] at hT
    simpa using hT.symm
  rw [hT0]
  refine huffmanLoopF_opt (letterMapOf text.data)
    (seedQueue (letterMapOf text.data)).length
    (seedQueue (letterMapOf text.data)) (by omega) (by omega)
    (seedQueue_sorted _) ?_ ?_ ?_ p T0 hres sh ?_
  · intro e he
    obtain ⟨kv, hkv, hekv⟩ := (seedQueue_mem _ _).mp he
    rw [hekv]
    simp only []
    have : mapGetNat (letterMapOf text.data) kv.1 = kv.2 :=
      mapGetNat_key _ hpair kv.1 kv.2 (by
        obtain ⟨k1, v1⟩ := kv
        exact hkv)
    rw [show weightOf (fun c => mapGetNat (letterMapOf text.data) c)
        (ETree.node kv.1 ETree.null ETree.null) =
        mapGetNat (letterMapOf text.data) kv.1 from rfl]
    rw [this]
  · intro e he
    obtain ⟨kv, _, hekv⟩ := (seedQueue_mem _ _).mp he
    rw [hekv]
    rfl
  · exact ((seedQueue_chars_perm (letterMapOf text.data)).nodup_iff).mpr hkeynd
  · refine hsh.trans ?_
    refine List.Perm.symm ?_
    refine (List.Perm.map Prod.snd (seedQueue_perm _)).trans ?_
    rw [List.map_map]
    rfl

/-- Sum of a pointwise sum of maps. -/
theorem sum_map_add (l : List Char) (f g : Char → Nat) :
    (l.map (fun c => f c + g c)).sum = (l.map f).sum + (l.map g).sum := by
  induction l with
  | nil => rfl
  | cons c rest ih =>
    simp only [List.map_cons, List.sum_cons, ih]
    omega

/-- Sum of the constant-one map is the length. -/
theorem sum_map_one (l : List Char) : (l.map (fun _ => (1 : Nat))).sum = l.length := by
  induction l with
  | nil => rfl
  | cons c rest ih => simp [ih]; omega

/-- Monotonicity of mapped sums. -/
theorem sum_map_le (l : List Char) (f g : Char → Nat) (h : ∀ c ∈ l, f c ≤ g c) :
    (l.map f).sum ≤ (l.map g).sum := by
  induction l with
  | nil => exact le_refl 0
  | cons c rest ih =>
    simp only [List.map_cons, List.sum_cons]
    have h1 := h c (by simp)
    have h2 := ih (fun d hd => h d (by simp [hd]))
    omega

/-- Every prefix-free code on an alphabet can be realised (or beaten) by a
combination of the alphabet's leaves: there is a shape over the leaf forest
whose cost is at most the code's weighted length. -/
theorem code_to_shape (w : Char → Nat) :
    ∀ (N : Nat) (A : List Char) (φ : Char → List Bool),
      (A.map (fun c => (φ c).length)).sum ≤ N →
      A ≠ [] →
      A.Nodup →
      (∀ x ∈ A, ∀ y ∈ A, x ≠ y → ¬ isPrefOf (φ x) (φ y)) →
      ∃ sh : Sh, (front sh).Perm (A.map (fun c => ETree.node c ETree.null ETree.null)) ∧
        shCost w sh ≤ (A.map (fun c => w c * (φ c).length)).sum := by
  intro N
  induction N with
  | zero =>
    intro A φ hsum hne hnd hpf
    match A with
    | [c] =>
      refine ⟨Sh.lf (ETree.node c ETree.null ETree.null), by simp [front], ?_⟩
      simp [shCost, cost, isNull]
    | c1 :: c2 :: rest =>
      exfalso
      have h12 : c1 ≠ c2 := by
        have := (List.nodup_cons.mp hnd).1
        intro h
        exact this (by rw [h]; simp)
      have hne1 : φ c1 ≠ [] := by
        intro h
        exact hpf c1 (by simp) c2 (by simp) h12 ⟨φ c2, by rw [h]; simp⟩
      have hlen1 : 1 ≤ (φ c1).length := by
        cases hφ : φ c1 with
        | nil => exact absurd hφ hne1
        | cons b t => simp
      simp only [List.map_cons, List.sum_cons] at hsum
      omega
  | succ N ih =>
    intro A φ hsum hne hnd hpf
    match A with
    | [c] =>
      refine ⟨Sh.lf (ETree.node c ETree.null ETree.null), by simp [front], ?_⟩
      simp [shCost, cost, isNull]
    | c1 :: c2 :: restA =>
      have hlen2 : 2 ≤ (c1 :: c2 :: restA).length := by simp
      have hnonempty : ∀ c ∈ c1 :: c2 :: restA, φ c ≠ [] := by
        intro c hc hc0
        have h12 : c1 ≠ c2 := by
          have := (List.nodup_cons.mp hnd).1
          intro h
          exact this (by rw [h]; simp)
        by_cases hcc : c = c1
        · exact hpf c hc c2 (by simp) (by rw [hcc]; exact h12)
            ⟨φ c2, by rw [hc0]; simp⟩
        · exact hpf c hc c1 (by simp) hcc ⟨φ c1, by rw [hc0]; simp⟩
      -- classify by leading bit
      by_cases hall : ∃ hd : Bool, ∀ c ∈ c1 :: c2 :: restA, (φ c).head? = some hd
      · -- all code words share their first bit: drop it and recurse
        obtain ⟨hd, hhd⟩ := hall
        have htails : ∀ c ∈ c1 :: c2 :: restA, φ c = hd :: (φ c).tail := by
          intro c hc
          have h1 := hhd c hc
          cases hφ : φ c with
          | nil => rw [hφ] at h1; simp at h1
          | cons b t =>
            rw [hφ] at h1
            simp at h1
            rw [h1]
            simp
        have hpf2 : ∀ x ∈ c1 :: c2 :: restA, ∀ y ∈ c1 :: c2 :: restA, x ≠ y →
            ¬ isPrefOf ((φ x).tail) ((φ y).tail) := by
          intro x hx y hy hxy ⟨r, hr⟩
          refine hpf x hx y hy hxy ⟨r, ?_⟩
          rw [htails x hx, htails y hy]
          simp [hr]
        have hsum2 : ((c1 :: c2 :: restA).map (fun c => ((φ c).tail).length)).sum ≤ N := by
          have heq : ((c1 :: c2 :: restA).map (fun c => (φ c).length)).sum =
              ((c1 :: c2 :: restA).map (fun c => ((φ c).tail).length)).sum +
                (c1 :: c2 :: restA).length := by
            rw [← sum_map_one (c1 :: c2 :: restA), ← sum_map_add]
            refine congrArg List.sum (List.map_congr_left ?_)
            intro c hc
            rw [htails c hc]
            simp
          simp only [List.length_cons] at heq
          omega
        obtain ⟨sh, hshperm, hshcost⟩ := ih (c1 :: c2 :: restA) (fun c => (φ c).tail)
          hsum2 (by simp) hnd hpf2
        refine ⟨sh, hshperm, ?_⟩
        refine le_trans hshcost ?_
        refine sum_map_le _ _ _ ?_
        intro c hc
        refine Nat.mul_le_mul_left _ ?_
        rw [htails c hc]
        simp
      · -- both leading bits occur: split the alphabet and recurse on both
        push_neg at hall
        have hsplit := List.filter_append_perm
          (fun c => ((φ c).head? = some false : Bool)) (c1 :: c2 :: restA)
        set A0 := (c1 :: c2 :: restA).filter
          (fun c => ((φ c).head? = some false : Bool)) with hA0
        set A1 := (c1 :: c2 :: restA).filter
          (fun c => !((φ c).head? = some false : Bool)) with hA1
        have hsub0 : ∀ c ∈ A0, c ∈ c1 :: c2 :: restA := by
          intro c hc
          exact List.mem_of_mem_filter hc
        have hsub1 : ∀ c ∈ A1, c ∈ c1 :: c2 :: restA := by
          intro c hc
          exact List.mem_of_mem_filter hc
        have hhd0 : ∀ c ∈ A0, φ c = false :: (φ c).tail := by
          intro c hc
          have h1 := List.of_mem_filter hc
          simp only [decide_eq_true_eq] at h1
          cases hφ : φ c with
          | nil => rw [hφ] at h1; simp at h1
          | cons bb t =>
            rw [hφ] at h1
            simp at h1
            rw [h1]
            simp
        have hhd1 : ∀ c ∈ A1, φ c = true :: (φ c).tail := by
          intro c hc
          have h1 := List.of_mem_filter hc
          simp only [Bool.not_eq_true', decide_eq_false_iff_not] at h1
          have h2 := hnonempty c (hsub1 c hc)
          cases hφ : φ c with
          | nil => exact absurd hφ h2
          | cons bb t =>
            rw [hφ] at h1
            cases bb with
            | false => simp at h1
            | true => simp
        have h0ne : A0 ≠ [] := by
          intro h0
          obtain ⟨c, hc, hcne⟩ := hall true
          have h1 : c ∈ A1 := by
            have := (hsplit.mem_iff).mpr hc
            rw [h0] at this
            simpa using this
          refine hcne ?_
          rw [hhd1 c h1]
          simp
        have h1ne : A1 ≠ [] := by
          intro h1
          obtain ⟨c, hc, hcne⟩ := hall false
          have h0 : c ∈ A0 := by
            have := (hsplit.mem_iff).mpr hc
            rw [h1] at this
            simpa using this
          refine hcne ?_
          rw [hhd0 c h0]
          simp
        have hnd0 : A0.Nodup := List.Nodup.filter _ hnd
        have hnd1 : A1.Nodup := List.Nodup.filter _ hnd
        have hpf0 : ∀ x ∈ A0, ∀ y ∈ A0, x ≠ y →
            ¬ isPrefOf ((φ x).tail) ((φ y).tail) := by
          intro x hx y hy hxy ⟨r, hr⟩
          refine hpf x (hsub0 x hx) y (hsub0 y hy) hxy ⟨r, ?_⟩
          rw [hhd0 x hx, hhd0 y hy]
          simp [hr]
        have hpf1 : ∀ x ∈ A1, ∀ y ∈ A1, x ≠ y →
            ¬ isPrefOf ((φ x).tail) ((φ y).tail) := by
          intro x hx y hy hxy ⟨r, hr⟩
          refine hpf x (hsub1 x hx) y (hsub1 y hy) hxy ⟨r, ?_⟩
          rw [hhd1 x hx, hhd1 y hy]
          simp [hr]
        -- sums over the two halves
        have hsumsplit : (A0.map (fun c => (φ c).length)).sum +
            (A1.map (fun c => (φ c).length)).sum =
            ((c1 :: c2 :: restA).map (fun c => (φ c).length)).sum := by
          rw [← List.sum_append, ← List.map_append]
          exact List.Perm.sum_eq (List.Perm.map _ hsplit)
        have hlen0 : 1 ≤ A0.length := by
          cases hA : A0 with
          | nil => exact absurd hA h0ne
          | cons x xs => simp
        have hlen1 : 1 ≤ A1.length := by
          cases hA : A1 with
          | nil => exact absurd hA h1ne
          | cons x xs => simp
        have htail0 : (A0.map (fun c => ((φ c).tail).length)).sum + A0.length =
            (A0.map (fun c => (φ c).length)).sum := by
          rw [← sum_map_one A0, ← sum_map_add]
          refine congrArg List.sum (List.map_congr_left ?_)
          intro c hc
          rw [hhd0 c hc]
          simp
        have htail1 : (A1.map (fun c => ((φ c).tail).length)).sum + A1.length =
            (A1.map (fun c => (φ c).length)).sum := by
          rw [← sum_map_one A1, ← sum_map_add]
          refine congrArg List.sum (List.map_congr_left ?_)
          intro c hc
          rw [hhd1 c hc]
          simp
        have hsum0 : (A0.map (fun c => ((φ c).tail).length)).sum ≤ N := by omega
        have hsum1 : (A1.map (fun c => ((φ c).tail).length)).sum ≤ N := by omega
        obtain ⟨sh0, hp0, hc0⟩ := ih A0 (fun c => (φ c).tail) hsum0 h0ne hnd0 hpf0
        obtain ⟨sh1, hp1, hc1⟩ := ih A1 (fun c => (φ c).tail) hsum1 h1ne hnd1 hpf1
        refine ⟨Sh.nd sh0 sh1, ?_, ?_⟩
        · rw [front]
          refine (List.Perm.append hp0 hp1).trans ?_
          rw [← List.map_append]
          exact List.Perm.map _ hsplit
        · rw [shCost]
          have hW0 : shWeight w sh0 = (A0.map w).sum := by
            rw [shWeight_eq]
            refine List.Perm.sum_eq ?_
            refine (List.Perm.map _ hp0).trans ?_
            rw [List.map_map]
            refine List.Perm.of_eq ?_
            refine List.map_congr_left ?_
            intro c _
            simp [Function.comp, weightOf, isNull]
          have hW1 : shWeight w sh1 = (A1.map w).sum := by
            rw [shWeight_eq]
            refine List.Perm.sum_eq ?_
            refine (List.Perm.map _ hp1).trans ?_
            rw [List.map_map]
            refine List.Perm.of_eq ?_
            refine List.map_congr_left ?_
            intro c _
            simp [Function.comp, weightOf, isNull]
          have hfin0 : (A0.map (fun c => w c * ((φ c).tail).length)).sum + (A0.map w).sum =
              (A0.map (fun c => w c * (φ c).length)).sum := by
            rw [← sum_map_add]
            refine congrArg List.sum (List.map_congr_left ?_)
            intro c hc
            rw [hhd0 c hc]
            simp only [List.length_cons, List.tail_cons]
            rw [Nat.mul_succ]
          have hfin1 : (A1.map (fun c => w c * ((φ c).tail).length)).sum + (A1.map w).sum =
              (A1.map (fun c => w c * (φ c).length)).sum := by
            rw [← sum_map_add]
            refine congrArg List.sum (List.map_congr_left ?_)
            intro c hc
            rw [hhd1 c hc]
            simp only [List.length_cons, List.tail_cons]
            rw [Nat.mul_succ]
          have hfinsplit : (A0.map (fun c => w c * (φ c).length)).sum +
              (A1.map (fun c => w c * (φ c).length)).sum =
              ((c1 :: c2 :: restA).map (fun c => w c * (φ c).length)).sum := by
            rw [← List.sum_append, ← List.map_append]
            exact List.Perm.sum_eq (List.Perm.map _ hsplit)
          omega

/-- The merging loop preserves the multiset of leaf characters: the single
surviving tree carries exactly the leaf characters of the starting queue. -/
theorem huffmanLoopF_chars_perm (lm : List (Char × Nat)) :
    ∀ (fuel : Nat) (q : List (Nat × ETree)),
      (∀ e ∈ q, wellFormed e.2 = true) →
      ∀ p T, huffmanLoopF lm fuel q = [(p, T)] →
      (leafChars T).Perm ((q.map (fun e => leafChars e.2)).flatten) := by
  intro fuel
  induction fuel with
  | zero =>
    intro q hq p T hres
    rw [huffmanLoopF] at hres
    rw [hres]
    simp
  | succ fuel ih =>
    intro q hq p T hres
    match q with
    | [] => simp [huffmanLoopF] at hres
    | [e] =>
      rw [huffmanLoopF_singleton] at hres
      have he : e = (p, T) := by simpa using hres
      rw [he]
      simp
    | (p1, t1) :: (p2, t2) :: rest =>
      rw [huffmanLoopF] at hres
      have hwf1 : wellFormed t1 = true := hq (p1, t1) (by simp)
      have hnn1 : isNull t1 = false := by
        cases t1 with
        | null => simp [wellFormed] at hwf1
        | node _ _ _ => rfl
      have hparchars : leafChars (ETree.node internalCh t1 t2) =
          leafChars t1 ++ leafChars t2 := leafChars_node _ _ _ hnn1
      have hwf' : ∀ e ∈ pqEnqueue (ETree.node internalCh t1 t2)
          (textFrequency (ETree.node internalCh t1 t2) lm) rest,
          wellFormed e.2 = true := by
        intro e he
        rcases (pqEnqueue_mem _ _ _ _).mp he with h | h
        · rw [h]
          exact wellFormed_node _ _ _ hwf1 (hq (p2, t2) (by simp))
        · exact hq e (by simp [h])
      refine (ih _ hwf' p T hres).trans ?_
      have hq' := pqEnqueue_perm (ETree.node internalCh t1 t2)
        (textFrequency (ETree.node internalCh t1 t2) lm) rest
      refine (List.Perm.flatten (List.Perm.map _ hq')).trans ?_
      simp only [List.map_cons, List.flatten_cons, hparchars]
      rw [List.append_assoc]

/-- The weighted sum of the code lengths that `traverse` records for the
leaves of a well-formed tree with distinct leaf characters equals the
tree's cost plus the weight carried along the entry location. -/
theorem traverse_sum (w : Char → Nat) (t : ETree) (hwf : wellFormed t = true)
    (hnd : (leafChars t).Nodup) :
    ∀ (loc : List Char) (m : List (Char × List Char)),
      ((leafChars t).map
          (fun c => w c * (mapGetStr (traverse t loc m) c).length)).sum =
        cost w t + loc.length * weightOf w t := by
  induction t with
  | null => simp [wellFormed] at hwf
  | node x z o ihz iho =>
    intro loc m
    by_cases h : (isNull z && isNull o) = true
    · have hleaf : (ETree.node x z o).isLeaf = true := by
        rw [isLeaf_iff_isNull, h]
      have htrav : traverse (ETree.node x z o) loc m = mapSetStr x loc m := by
        rw [traverse.eq_2, hleaf]
        simp
      have hchars : leafChars (ETree.node x z o) = [x] := by
        rw [leafChars]
        simp [h]
      rw [hchars, htrav]
      simp only [List.map_cons, List.map_nil, List.sum_cons, List.sum_nil]
      rw [mapGetStr_set, if_pos rfl, cost, weightOf]
      simp only [h, if_true]
      rw [Nat.mul_comm, Nat.add_zero, Nat.zero_add]
    · rw [Bool.not_eq_true] at h
      have hleaf : (ETree.node x z o).isLeaf = false := by
        rw [isLeaf_iff_isNull, h]
      have hwfc : wellFormed z = true ∧ wellFormed o = true := by
        rw [wellFormed] at hwf
        simp only [h, Bool.false_eq_true, if_false, Bool.and_eq_true] at hwf
        exact ⟨hwf.1.2, hwf.2⟩
      have htrav : traverse (ETree.node x z o) loc m =
          traverse o (loc ++ ['1']) (traverse z (loc ++ ['0']) m) := by
        rw [traverse.eq_2, hleaf]
        simp
      have hchars : leafChars (ETree.node x z o) = leafChars z ++ leafChars o := by
        rw [leafChars]
        simp [h]
      rw [hchars] at hnd
      obtain ⟨hndz, hndo, hdisj⟩ := List.nodup_append.mp hnd
      rw [hchars, htrav, List.map_append, List.sum_append]
      have hzrw : ((leafChars z).map (fun c => w c *
          (mapGetStr (traverse o (loc ++ ['1'])
            (traverse z (loc ++ ['0']) m)) c).length)).sum =
          ((leafChars z).map (fun c => w c *
            (mapGetStr (traverse z (loc ++ ['0']) m) c).length)).sum := by
        refine congrArg List.sum (List.map_congr_left ?_)
        intro c hc
        rw [((traverse_spec o hwfc.2 (loc ++ ['1'])
          (traverse z (loc ++ ['0']) m)).2) c (fun hco => hdisj hc hco)]
      rw [hzrw, ihz hwfc.1 hndz (loc ++ ['0']) m,
        iho hwfc.2 hndo (loc ++ ['1']) (traverse z (loc ++ ['0']) m)]
      rw [cost, weightOf]
      simp only [h, Bool.false_eq_true, if_false]
      simp only [List.length_append, List.length_singleton]
      have e1 : (loc.length + 1) * weightOf w z =
          loc.length * weightOf w z + weightOf w z := by
        rw [Nat.add_mul, Nat.one_mul]
      have e2 : (loc.length + 1) * weightOf w o =
          loc.length * weightOf w o + weightOf w o := by
        rw [Nat.add_mul, Nat.one_mul]
      have e3 : loc.length * (weightOf w z + weightOf w o) =
          loc.length * weightOf w z + loc.length * weightOf w o := Nat.mul_add _ _ _
      rw [e1, e2, e3]
      omega

/-- The tree built for the two-character text `"AB"`. -/
def abT : ETree :=
  ETree.node internalCh (ETree.node 'A' .null .null) (ETree.node 'B' .null .null)

/-- A concrete competing binary code: `'B'` is sent as `1`, anything else
as `0`. -/
def abCode (c : Char) : List Bool := if c = 'B' then [true] else [false]

/-- C8: for every text with at least two distinct symbols (witnessed by
members `a ≠ b`), the tree `T` returned by `buildHuffmanTree` minimises the
weighted path length: the sum, over all symbols of the text (= the leaves
of `T`), of the symbol's frequency times the length of its root-to-leaf
code (the code `traverse` records and `encodeText` uses) is at most the
same frequency-weighted sum of the code-word lengths of any prefix-free
binary code `φ` on the text's symbols. -/
theorem c8_optimality (text : String) (a b : Char)
    (ha : a ∈ text.data) (hb : b ∈ text.data) (hab : a ≠ b)
    (T : ETree) (hT : buildHuffmanTree text = some T)
    (φ : Char → List Bool)
    (hpf : ∀ x ∈ text.data, ∀ y ∈ text.data, x ≠ y → ¬ isPrefOf (φ x) (φ y)) :
    ((leafChars T).map (fun c => mapGetNat (letterMapOf text.data) c *
        (mapGetStr (traverse T [] []) c).length)).sum ≤
      ((leafChars T).map (fun c => mapGetNat (letterMapOf text.data) c *
        (φ c).length)).sum := by
  obtain ⟨T', hT', hwf', _, _, hchars'⟩ := buildHuffmanTree_spec text a b ha hb hab
  have hTT : T = T' := by
    rw [hT'] at hT
    simpa using hT.symm
  subst hTT
  -- the leaf characters of the built tree are the frequency map's keys
  have hpair := letterMapOf_pairwise text.data
  have hkeynd : ((letterMapOf text.data).map Prod.fst).Nodup := by
    have h2 : ((letterMapOf text.data).map Prod.fst).Pairwise (fun a b => a ≠ b) := by
      refine List.Pairwise.map Prod.fst ?_ hpair
      intro e1 e2 h heq
      rw [heq] at h
      exact lt_irrefl _ h
    exact h2
  have hinv : ∀ e ∈ seedQueue (letterMapOf text.data),
      wellFormed e.2 = true ∧ canonical e.2 = e.2 := by
    intro e he
    obtain ⟨kv, _, hkv⟩ := (seedQueue_mem _ _).mp he
    rw [hkv]
    exact ⟨rfl, rfl⟩
  have hA : ∃ e ∈ letterMapOf text.data, e.1 = a := (letterMapOf_mem_key _ _).mpr ha
  have hB : ∃ e ∈ letterMapOf text.data, e.1 = b := (letterMapOf_mem_key _ _).mpr hb
  obtain ⟨ea, hea, hka⟩ := hA
  obtain ⟨eb, heb, hkb⟩ := hB
  have hne : ea ≠ eb := by
    intro h
    rw [h, hkb] at hka
    exact hab hka.symm
  have hlen2 : 2 ≤ (letterMapOf text.data).length := two_mem_length _ ea eb hea heb hne
  have hq2 : 2 ≤ (seedQueue (letterMapOf text.data)).length := by
    rw [seedQueue_length]
    exact hlen2
  obtain ⟨p, T0, hres, _, _, _, _⟩ :=
    huffmanLoopF_spec (letterMapOf text.data)
      (seedQueue (letterMapOf text.data)).length
      (seedQueue (letterMapOf text.data)) (by omega) hq2 hinv
  have hres2 : huffmanLoop (letterMapOf text.data)
      (seedQueue (letterMapOf text.data)) = [(p, T0)] := hres
  have hT0 : T = T0 := by
    rw [buildHuffmanTree] at hT
    simp only [hres2] at hT
    simpa using hT.symm
  have hTperm : (leafChars T).Perm ((letterMapOf text.data).map Prod.fst) := by
    rw [hT0]
    refine (huffmanLoopF_chars_perm (letterMapOf text.data) _ _
      (fun e he => (hinv e he).1) p T0 hres).trans ?_
    exact seedQueue_chars_perm _
  have hTnd : (leafChars T).Nodup := (hTperm.nodup_iff).mpr hkeynd
  have hTne : leafChars T ≠ [] := by
    intro h0
    have := (hchars' a).mpr ha
    rw [h0] at this
    simp at this
  have hpfT : ∀ x ∈ leafChars T, ∀ y ∈ leafChars T, x ≠ y →
      ¬ isPrefOf (φ x) (φ y) := by
    intro x hx y hy hxy
    exact hpf x ((hchars' x).mp hx) y ((hchars' y).mp hy) hxy
  obtain ⟨sh, hfr, hcost⟩ := code_to_shape
    (fun c => mapGetNat (letterMapOf text.data) c)
    (((leafChars T).map (fun c => (φ c).length)).sum) (leafChars T) φ
    (le_refl _) hTne hTnd hpfT
  have hfr2 : (front sh).Perm ((letterMapOf text.data).map
      (fun kv => ETree.node kv.1 ETree.null ETree.null)) := by
    refine hfr.trans ?_
    refine (List.Perm.map _ hTperm).trans ?_
    rw [List.map_map]
    exact List.Perm.refl _
  have hopt := buildHuffmanTree_opt text a b ha hb hab T hT sh hfr2
  have hsum := traverse_sum (fun c => mapGetNat (letterMapOf text.data) c)
    T hwf' hTnd [] []
  simp only [List.length_nil, Nat.zero_mul, Nat.add_zero] at hsum
  rw [hsum]
  exact le_trans hopt hcost

/-- C8 witness: at the text `"AB"` (distinct symbols `A`, `B`, built tree
`abT`) against the competing prefix-free code `abCode`, every hypothesis is
checked concretely and the weighted-path-length bound follows. -/
theorem c8_witness :
    ('A' ∈ "AB".data ∧ 'B' ∈ "AB".data ∧ ('A' : Char) ≠ 'B' ∧
      buildHuffmanTree "AB" = some abT ∧
      (∀ x ∈ "AB".data, ∀ y ∈ "AB".data, x ≠ y →
        ¬ isPrefOf (abCode x) (abCode y))) ∧
    ((leafChars abT).map (fun c => mapGetNat (letterMapOf "AB".data) c *
        (mapGetStr (traverse abT [] []) c).length)).sum ≤
      ((leafChars abT).map (fun c => mapGetNat (letterMapOf "AB".data) c *
        (abCode c).length)).sum := by
  have hpf : ∀ x ∈ "AB".data, ∀ y ∈ "AB".data, x ≠ y →
      ¬ isPrefOf (abCode x) (abCode y) := by
    intro x hx y hy hxy hpre
    obtain ⟨r, hr⟩ := hpre
    have hdata : "AB".data = ['A', 'B'] := by decide
    rw [hdata] at hx hy
    simp only [List.mem_cons, List.not_mem_nil, or_false] at hx hy
    rcases hx with hx | hx <;> rcases hy with hy | hy <;>
      first
        | exact hxy (hx.trans hy.symm)
        | (subst hx; subst hy; simp [abCode] at hr)
  exact ⟨⟨by decide, by decide, by decide, by decide, hpf⟩,
    c8_optimality "AB" 'A' 'B' (by decide) (by decide) (by decide) abT (by decide)
      abCode hpf⟩

end Huffman
